import Mathlib

/-!
Verification of the interval intersecter (cruzdb/intersecter.py).

The Python source is shallowly embedded below. Machine integers are modelled
by Int (Python has arbitrary-precision integers, so no wraparound is needed).
Python exceptions (IndexError, AssertionError, ZeroDivisionError, ValueError)
are modelled with an Except monad. Python while-loops and the recursion in
left are modelled with explicit fuel; each loop is invoked with fuel that is
provably sufficient, so the fuelled functions agree with the source loops.
The defaultdict self.intervals is modelled as an association list from the
optional partition key to the list of features; a lookup of a missing key
inserts an empty list, exactly as defaultdict(list) does.
-/

namespace Cruzdb

/-- Python exceptions that the embedded code can raise. -/
inductive PyErr where
  | indexError : PyErr
  | assertionError : PyErr
  | zeroDivisionError : PyErr
  | valueError : PyErr
deriving DecidableEq

/-- Feature(start, end, strand=0, name="", info=None, chrom=None).
The start <= end assertion of Feature.__init__ is modelled at each
construction site inside the embedded code (a failed check raises
assertionError); stored and query features are therefore accompanied by
validity hypotheses in theorems rather than by a proof field. The info
payload is opaque to the code and is modelled as an optional string. -/
structure Feature where
  start : Int
  end_ : Int
  strand : Int := 0
  name : String := ""
  info : Option String := none
  chrom : Option Int := none
deriving DecidableEq

instance {ε α : Type} [DecidableEq ε] [DecidableEq α] : DecidableEq (Except ε α) :=
  fun a b =>
    match a, b with
    | .ok x, .ok y =>
      if h : x = y then .isTrue (by rw [h]) else .isFalse (by intro hc; cases hc; exact h rfl)
    | .error x, .error y =>
      if h : x = y then .isTrue (by rw [h]) else .isFalse (by intro hc; cases hc; exact h rfl)
    | .ok _, .error _ => .isFalse (by intro hc; cases hc)
    | .error _, .ok _ => .isFalse (by intro hc; cases hc)

/-- Dummy feature used as the default of positional lookups. -/
def d0 : Feature := ⟨0, 0, 0, "", none, none⟩

/-- A feature satisfies the Feature.__init__ assertion. -/
def validF (f : Feature) : Prop := f.start ≤ f.end_

instance (f : Feature) : Decidable (validF f) := by
  unfold validF; infer_instance

/-- Python list indexing l[i]: negative indices count from the end,
out-of-range indices give none (IndexError). -/
def pyGetI (l : List Feature) (i : Int) : Option Feature :=
  let j : Int := if i < 0 then (l.length : Int) + i else i
  if 0 ≤ j then l.get? j.toNat else none

/-- Python slice l[:i] (negative i counts from the end, clamped). -/
def pySliceTo (l : List Feature) (i : Int) : List Feature :=
  let j : Int := if i < 0 then (l.length : Int) + i else i
  l.take j.toNat

/-- Python slice l[a:b] for nonnegative bounds (clamped). -/
def pySlice (l : List Feature) (a b : Nat) : List Feature :=
  (l.drop a).take (b - a)

/-- distance(f1, f2) from the source: 0 when the ranges overlap or touch,
otherwise the gap between the closer edges. -/
def distance (f1 f2 : Feature) : Int :=
  if f1.end_ < f2.start then f2.start - f1.end_
  else if f2.end_ < f1.start then f1.start - f2.end_
  else 0

/-- Stable insertion of x into a list ordered by the integer key; x is
placed after every element whose key is less than or equal to its own,
which is what a stable sort does with elements arriving later. -/
def insertK (key : Feature → Int) (x : Feature) : List Feature → List Feature
  | [] => [x]
  | y :: ys => if key x ≤ key y then x :: y :: ys else y :: insertK key x ys

/-- Stable sort by an integer key; extensionally equal to Python's stable
list.sort with this key (the output of a stable sort is unique). -/
def sortK (key : Feature → Int) : List Feature → List Feature
  | [] => []
  | x :: xs => insertK key x (sortK key xs)

/-- Fuelled body of binsearch_left_start's while loop. Fuel hi - lo is
always sufficient: the span shrinks every iteration, so when fuel runs out
the guard lo < hi is already false and returning lo is the loop exit. -/
def bslF (intervals : List Feature) (x : Int) : Nat → Nat → Nat → Except PyErr Nat
  | 0, lo, _ => .ok lo
  | fuel + 1, lo, hi =>
    if lo < hi then
      let mid := (lo + hi) / 2
      match intervals.get? mid with
      | none => .error .indexError
      | some f =>
        if f.start < x then bslF intervals x fuel (mid + 1) hi
        else bslF intervals x fuel lo mid
    else .ok lo

/-- binsearch_left_start(intervals, x, lo, hi) from the source. -/
def binsearch_left_start (intervals : List Feature) (x : Int) (lo hi : Nat) :
    Except PyErr Nat :=
  bslF intervals x (hi - lo) lo hi

/-- Fuelled body of binsearch_right_end's while loop (Python 2 integer
division (lo + hi)/2 floors, the same as Nat division). -/
def bsrF (intervals : List Feature) (x : Int) : Nat → Nat → Nat → Except PyErr Nat
  | 0, lo, _ => .ok lo
  | fuel + 1, lo, hi =>
    if lo < hi then
      let mid := (lo + hi) / 2
      match intervals.get? mid with
      | none => .error .indexError
      | some f =>
        if x < f.start then bsrF intervals x fuel lo mid
        else bsrF intervals x fuel (mid + 1) hi
    else .ok lo

/-- binsearch_right_end(intervals, x, lo, hi) from the source. -/
def binsearch_right_end (intervals : List Feature) (x : Int) (lo hi : Nat) :
    Except PyErr Nat :=
  bsrF intervals x (hi - lo) lo hi

/-- The defaultdict(list) mapping partition keys to feature lists,
as an insertion-ordered association list with unique keys. -/
abbrev PMap := List (Option Int × List Feature)

/-- Plain association-list lookup (first matching key). -/
def lookupP : PMap → Option Int → Option (List Feature)
  | [], _ => none
  | (k2, l) :: rest, k => if k2 = k then some l else lookupP rest k

/-- Lookup with a default. -/
def lookupD (m : PMap) (k : Option Int) (dflt : List Feature) : List Feature :=
  (lookupP m k).getD dflt

/-- defaultdict access d[k]: returns the stored list, or inserts and
returns an empty list when the key is missing (mutating the dict). -/
def ddGet (m : PMap) (k : Option Int) : List Feature × PMap :=
  match lookupP m k with
  | some l => (l, m)
  | none => ([], m ++ [(k, [])])

/-- self.intervals[iv.chrom].append(iv): append v to the entry of key c,
creating the entry when absent. -/
def ddAppend : PMap → Option Int → Feature → PMap
  | [], c, v => [(c, [v])]
  | (k, l) :: rest, c, v =>
    if k = c then (k, l ++ [v]) :: rest else (k, l) :: ddAppend rest c v

/-- The Intersecter state: the partition dict and the max_len scalar. -/
structure Intersecter where
  intervals : PMap
  max_len : Int
deriving DecidableEq

/-- The dict-building loop of Intersecter.__init__. -/
def buildMap (ivs : List Feature) : PMap :=
  ivs.foldl (fun m iv => ddAppend m iv.chrom iv) []

/-- Intersecter.__init__(intervals): partition by chrom, sort each
partition by start (Python's stable sort), then set max_len to the maximum
of end - start over the whole input, clamped below at 1. Python's
max([]) on an empty input raises ValueError, so construction from the
empty collection fails. The initial assignment max_len = 1 in the source
is dead (unconditionally overwritten or the constructor raises). -/
def init (ivs : List Feature) : Except PyErr Intersecter :=
  let m := buildMap ivs
  let sortedm : PMap := m.map (fun e => (e.1, sortK (fun g => g.start) e.2))
  match ivs.map (fun i => i.end_ - i.start) with
  | [] => .error .valueError
  | x :: xs =>
    let mx := xs.foldl (fun a b => max a b) x
    .ok ⟨sortedm, if mx < 1 then 1 else mx⟩

/-- Intersecter.find(start, end, chrom): window by binary search, then
keep the candidates at distance zero from the synthetic query feature.
The Feature(start, end) construction asserts start <= end. The dict
access may insert a missing key, so the (possibly updated) state is
returned alongside the result. -/
def find (T : Intersecter) (start end_ : Int) (chrom : Option Int) :
    Except PyErr (List Feature) × Intersecter :=
  let p := ddGet T.intervals chrom
  let intervals := p.1
  let T1 : Intersecter := ⟨p.2, T.max_len⟩
  let ilen := intervals.length
  match binsearch_left_start intervals (start - T.max_len) 0 ilen with
  | .error e => (.error e, T1)
  | .ok ileft =>
    match binsearch_right_end intervals end_ ileft ilen with
    | .error e => (.error e, T1)
    | .ok iright =>
      if start ≤ end_ then
        (.ok ((pySlice intervals ileft iright).filter
          (fun f => decide (distance f ⟨start, end_, 0, "", none, none⟩ = 0))), T1)
      else (.error .assertionError, T1)

/-- One pass of the for-loop `for i in range(n, len(results))` of
Intersecter.left: scan for the first gap in distances, returning
results[:i] at the gap. The Int index i starts at n (which the source can
make negative through its recursion) and the Nat argument counts the
remaining iterations, so Python's negative indexing and slicing semantics
are preserved by pyGetI and pySliceTo. -/
def gapLoop (f : Feature) (res : List Feature) : Int → Nat → Except PyErr (Option (List Feature))
  | _, 0 => .ok none
  | i, k + 1 =>
    match pyGetI res (i - 1), pyGetI res i with
    | some a, some b =>
      if distance f a ≠ distance f b then .ok (some (pySliceTo res i))
      else gapLoop f res (i + 1) k
    | _, _ => .error .indexError

/-- Outcome of one body of Intersecter.left before the recursive call:
either the function returns (a result list or an exception), or it
recurses with the results collected so far, the new query feature and the
new requested count. -/
inductive LeftStep where
  | ret : Except PyErr (List Feature) → LeftStep
  | rec_ : List Feature → Feature → Int → LeftStep

/-- One body of Intersecter.left(f, n) up to the recursion decision,
returning the outcome together with the (possibly extended) state. The
window is intervals[ileft:iright] with iright one past the lower bound of
f.start and ileft the lower bound of f.start - max_len - 1 below it; the
candidates with end < f.start and nonzero distance are stably sorted by
distance to f (the source sorts (other, f) pairs with a distance
comparator, which is this stable key sort). The for-loop over
range(n, len(results)) is gapLoop. The recursive calls construct
Feature(start=..., end=f.end) whose chrom defaults to None, exactly as in
the source, so the recursion continues on the None partition; the Feature
construction assert is the start <= end check. -/
def leftStep (T : Intersecter) (f : Feature) (n : Int) : LeftStep × Intersecter :=
  let p := ddGet T.intervals f.chrom
  let intervals := p.1
  let T1 : Intersecter := ⟨p.2, T.max_len⟩
  match binsearch_left_start intervals f.start 0 intervals.length with
  | .error e => (.ret (.error e), T1)
  | .ok ir0 =>
    let iright := ir0 + 1
    match binsearch_left_start intervals (f.start - T.max_len - 1) 0 (iright - 1) with
    | .error e => (.ret (.error e), T1)
    | .ok ileft =>
      let cand := pySlice intervals ileft iright
      let base := cand.filter
        (fun o => decide (o.end_ < f.start) && decide (distance f o ≠ 0))
      let results := sortK (fun o => distance o f) base
      if (results.length : Int) = n then (.ret (.ok results), T1)
      else
        match gapLoop f results n ((results.length : Int) - n).toNat with
        | .error e => (.ret (.error e), T1)
        | .ok (some out) => (.ret (.ok out), T1)
        | .ok none =>
          if ileft = 0 then (.ret (.ok results), T1)
          else
            match results.getLast? with
            | some lastr =>
              if lastr.start ≤ f.end_ then
                (.rec_ results ⟨lastr.start, f.end_, 0, "", none, none⟩
                  (n - (results.length : Int)), T1)
              else (.ret (.error .assertionError), T1)
            | none =>
              if f.start - 1 ≤ f.end_ then
                (.rec_ results ⟨f.start - 1, f.end_, 0, "", none, none⟩ n, T1)
              else (.ret (.error .assertionError), T1)

/-- Intersecter.left(f, n) with explicit fuel for the recursive window
widening (none = fuel exhausted; a later theorem computes sufficient
fuel). Each level runs one body and, when the body widens the window,
prepends its collected results to the recursive outcome, exactly as
results + self.left(...) does. -/
def leftF : Nat → Intersecter → Feature → Int →
    Option (Except PyErr (List Feature) × Intersecter)
  | 0, _, _, _ => none
  | fuel + 1, T, f, n =>
    match leftStep T f n with
    | (.ret r, T1) => some (r, T1)
    | (.rec_ results f2 n2, T1) =>
      match leftF fuel T1 f2 n2 with
      | none => none
      | some (.ok rec_, T2) => some (.ok (results ++ rec_), T2)
      | some (.error e, T2) => some (.error e, T2)

/-- The while loop of Intersecter.right. Fuel ilen - iright is always
sufficient: iright increases every iteration, so fuel exhaustion coincides
with the loop guard iright < ilen failing. The i > n check compares the
distances of the last two collected results before consuming the next
candidate and, on a gap, returns all but the last collected result. -/
def rightLoop (f : Feature) (n : Int) (intervals : List Feature) (ilen : Nat) :
    Nat → Nat → List Feature → Except PyErr (List Feature)
  | 0, _, results => .ok results
  | fuel + 1, iright, results =>
    if iright < ilen then
      let i : Int := (results.length : Int)
      let early : Option (Except PyErr (List Feature)) :=
        if n < i then
          match pyGetI results (i - 1), pyGetI results (i - 2) with
          | some a, some b =>
            if distance f a ≠ distance f b then some (.ok (pySliceTo results (i - 1)))
            else none
          | _, _ => some (.error .indexError)
        else none
      match early with
      | some r => r
      | none =>
        match intervals.get? iright with
        | none => .error .indexError
        | some other =>
          if distance other f = 0 then rightLoop f n intervals ilen fuel (iright + 1) results
          else rightLoop f n intervals ilen fuel (iright + 1) (results ++ [other])
    else .ok results

/-- Intersecter.right(f, n). -/
def right (T : Intersecter) (f : Feature) (n : Int) :
    Except PyErr (List Feature) × Intersecter :=
  let p := ddGet T.intervals f.chrom
  let intervals := p.1
  let T1 : Intersecter := ⟨p.2, T.max_len⟩
  let ilen := intervals.length
  match binsearch_right_end intervals f.end_ 0 ilen with
  | .error e => (.error e, T1)
  | .ok ir0 => (rightLoop f n intervals ilen (ilen - ir0) ir0 [], T1)

/-- Intersecter.upstream(f, n): dispatch on the strand of f. -/
def upstreamF (fuel : Nat) (T : Intersecter) (f : Feature) (n : Int) :
    Option (Except PyErr (List Feature) × Intersecter) :=
  if f.strand = -1 then some (right T f n) else leftF fuel T f n

/-- Intersecter.downstream(f, n): dispatch on the strand of f. -/
def downstreamF (fuel : Nat) (T : Intersecter) (f : Feature) (n : Int) :
    Option (Except PyErr (List Feature) × Intersecter) :=
  if f.strand = -1 then leftF fuel T f n else some (right T f n)

/-- The query argument of knearest: either a Feature or the
(f_or_start, end, chrom) form that synthesizes one. -/
inductive KQuery where
  | feat : Feature → KQuery
  | range : Int → Int → Option Int → KQuery

/-- Body of Intersecter.knearest once the query feature f is in hand:
the dict access and the two binary searches of the initial window are
performed, then the unconditional 1/0 on line 275 raises
ZeroDivisionError; the expansion loop after it is unreachable. -/
def knearestF (T : Intersecter) (f : Feature) (_k : Int) (_inclusive : Bool) :
    Except PyErr (List Feature) × Intersecter :=
  let p := ddGet T.intervals f.chrom
  let intervals := p.1
  let T1 : Intersecter := ⟨p.2, T.max_len⟩
  let ilen := intervals.length
  match binsearch_left_start intervals (f.start - T.max_len) 0 ilen with
  | .error e => (.error e, T1)
  | .ok ileft =>
    match binsearch_right_end intervals f.end_ ileft ilen with
    | .error e => (.error e, T1)
    | .ok _ => (.error .zeroDivisionError, T1)

/-- Intersecter.knearest(f_or_start, end, chrom, k, inclusive). The range
form constructs Feature(f_or_start, end, chrom=chrom), whose assert is the
start <= end check. -/
def knearest (T : Intersecter) (q : KQuery) (k : Int) (inclusive : Bool) :
    Except PyErr (List Feature) × Intersecter :=
  match q with
  | .range s e c =>
    if s ≤ e then knearestF T ⟨s, e, 0, "", none, c⟩ k inclusive
    else (.error .assertionError, T)
  | .feat f => knearestF T f k inclusive

/-- All features of a list satisfy the Feature constructor assertion. -/
def validL (ivs : List Feature) : Prop := ∀ iv ∈ ivs, validF iv

instance (ivs : List Feature) : Decidable (validL ivs) := by
  unfold validL
  exact List.decidableBAll _ ivs

/-- Every stored feature of every partition satisfies the constructor
assertion. -/
def validStored (T : Intersecter) : Prop :=
  ∀ k g, g ∈ lookupD T.intervals k [] → validF g

/-- Every partition is sorted by ascending start. -/
def sortedStored (T : Intersecter) : Prop :=
  ∀ k, (lookupD T.intervals k []).Pairwise (fun a b => a.start ≤ b.start)

/-- Every stored feature has length at most max_len. -/
def boundedStored (T : Intersecter) : Prop :=
  ∀ k g, g ∈ lookupD T.intervals k [] → g.end_ - g.start ≤ T.max_len

/-- One partition map extends another by (at most) inserting empty lists
under previously missing keys: existing entries are untouched and a
missing key stays missing or becomes the empty list. This is exactly the
observable effect defaultdict lookups can have. -/
def Ext (m m' : PMap) : Prop :=
  (∀ k l, lookupP m k = some l → lookupP m' k = some l) ∧
  (∀ k, lookupP m k = none → lookupP m' k = none ∨ lookupP m' k = some [])

/-- All features stored anywhere in the partition map. -/
def allFeats (m : PMap) : List Feature :=
  m.foldr (fun e acc => e.2 ++ acc) []

/-- Minimum of a list of integers (none for the empty list). -/
def minList : List Int → Option Int
  | [] => none
  | x :: xs => some (xs.foldl (fun a b => min a b) x)

/-- The smallest start of any stored feature. -/
def minStartAll (T : Intersecter) : Option Int :=
  minList ((allFeats T.intervals).map (fun g => g.start))

/-- Sufficient fuel for the recursive widening of left: the widening
lowers the query start by at least one per call and can only recurse
while the current partition still has a feature starting below
f.start - max_len - 1, so the gap from f.start down to the smallest
stored start (plus the window width) bounds the recursion depth. -/
def leftBound (T : Intersecter) (f : Feature) : Nat :=
  match minStartAll T with
  | none => 0
  | some m => (f.start - T.max_len - 1 - m).toNat

/-! Concrete features and states used by witnesses and counterexamples. -/

/-- Doctest features of the source. -/
def fA : Feature := ⟨0, 10, -1, "", none, none⟩

def fB : Feature := ⟨3, 7, 1, "", none, none⟩

def fC : Feature := ⟨3, 40, -1, "", none, none⟩

def fD : Feature := ⟨13, 50, 1, "", none, none⟩

def docIvs : List Feature := [fA, fB, fC, fD]

/-- The Intersecter built from the doctest features. -/
def docT : Intersecter := ⟨[(none, [fA, fB, fC, fD])], 37⟩

/-- Two features strictly right of the query ⟨0,1⟩ at distances 9 and 11. -/
def c3a : Feature := ⟨10, 11, 0, "", none, none⟩

def c3b : Feature := ⟨12, 13, 0, "", none, none⟩

def c3T : Intersecter := ⟨[(none, [c3a, c3b])], 1⟩

def c3f : Feature := ⟨0, 1, 0, "", none, none⟩

/-- Four features right of ⟨0,1⟩ at distances 5, 5, 7, 9: with n = 1 the
scan returns the two tied results and excludes the two farther ones. -/
def c3wIvs : List Feature :=
  [⟨6, 7, 0, "", none, none⟩, ⟨6, 8, 0, "", none, none⟩,
   ⟨8, 9, 0, "", none, none⟩, ⟨10, 11, 0, "", none, none⟩]

def c3wT : Intersecter := ⟨[(none, c3wIvs)], 2⟩

/-- Input whose left query crashes: a long feature on partition 1 fixes
max_len = 5; on partition None, three features tied at distance 1 from
⟨100,101⟩ fill the first window, a distant feature keeps ileft above 0,
and the widening recurses with n = 1 - 3 = -2, whereupon the gap scan
evaluates results[-3] on an empty list and raises IndexError. -/
def c5z : Feature := ⟨0, 5, 0, "", none, some 1⟩

def c5w : Feature := ⟨50, 52, 0, "", none, none⟩

def c5t1 : Feature := ⟨95, 99, 0, "", none, none⟩

def c5t2 : Feature := ⟨96, 99, 0, "", none, none⟩

def c5t3 : Feature := ⟨97, 99, 0, "", none, none⟩

def c5Ivs : List Feature := [c5z, c5w, c5t1, c5t2, c5t3]

def c5T : Intersecter := ⟨[(some 1, [c5z]), (none, [c5w, c5t1, c5t2, c5t3])], 5⟩

def c5f : Feature := ⟨100, 101, 0, "", none, none⟩

/-- A state whose only partition key is 1; querying partition None
inserts the missing key. -/
def c7v : Feature := ⟨0, 5, 0, "", none, some 1⟩

def c7T : Intersecter := ⟨[(some 1, [c7v])], 5⟩

/-- Query feature used by the directional witnesses. -/
def c4f : Feature := ⟨11, 12, 0, "", none, none⟩

/-! Lemmas about sorted access and the binary searches. -/

theorem sorted_getD_mono (l : List Feature)
    (hs : l.Pairwise (fun a b => a.start ≤ b.start)) {i j : Nat}
    (hij : i ≤ j) (hj : j < l.length) :
    (l.getD i d0).start ≤ (l.getD j d0).start := by
  rcases Nat.eq_or_lt_of_le hij with h | h
  · subst h; exact le_refl _
  · have hi : i < l.length := lt_trans h hj
    rw [List.getD_eq_get l d0 hi, List.getD_eq_get l d0 hj]
    have := List.pairwise_iff_get.mp hs ⟨i, hi⟩ ⟨j, hj⟩ h
    exact this

theorem getD_mem (l : List Feature) {j : Nat} (hj : j < l.length) :
    l.getD j d0 ∈ l := by
  rw [List.getD_eq_get l d0 hj]
  exact List.get_mem l j hj

theorem bslF_ok (intervals : List Feature) (x : Int) :
    ∀ fuel lo hi, lo ≤ hi → hi ≤ intervals.length → hi - lo ≤ fuel →
    ∃ r, bslF intervals x fuel lo hi = .ok r ∧ lo ≤ r ∧ r ≤ hi := by
  intro fuel
  induction fuel with
  | zero => intro lo hi h1 _ _; exact ⟨lo, rfl, le_refl lo, h1⟩
  | succ fuel ih =>
    intro lo hi h1 h2 h3
    by_cases hlh : lo < hi
    · have hmidlt : (lo + hi) / 2 < hi := by omega
      have hmidge : lo ≤ (lo + hi) / 2 := by omega
      have hmem : (lo + hi) / 2 < intervals.length := lt_of_lt_of_le hmidlt h2
      have hget : intervals.get? ((lo + hi) / 2) =
          some (intervals.get ⟨(lo + hi) / 2, hmem⟩) := List.get?_eq_get hmem
      simp only [bslF, if_pos hlh, hget]
      by_cases hc : (intervals.get ⟨(lo + hi) / 2, hmem⟩).start < x
      · rw [if_pos hc]
        obtain ⟨r, hr, hr1, hr2⟩ := ih ((lo + hi) / 2 + 1) hi (by omega) h2 (by omega)
        exact ⟨r, hr, by omega, hr2⟩
      · rw [if_neg hc]
        obtain ⟨r, hr, hr1, hr2⟩ := ih lo ((lo + hi) / 2) (by omega)
          (le_of_lt hmem) (by omega)
        exact ⟨r, hr, hr1, by omega⟩
    · simp only [bslF, if_neg hlh]
      exact ⟨lo, rfl, le_refl lo, h1⟩

theorem bsrF_ok (intervals : List Feature) (x : Int) :
    ∀ fuel lo hi, lo ≤ hi → hi ≤ intervals.length → hi - lo ≤ fuel →
    ∃ r, bsrF intervals x fuel lo hi = .ok r ∧ lo ≤ r ∧ r ≤ hi := by
  intro fuel
  induction fuel with
  | zero => intro lo hi h1 _ _; exact ⟨lo, rfl, le_refl lo, h1⟩
  | succ fuel ih =>
    intro lo hi h1 h2 h3
    by_cases hlh : lo < hi
    · have hmidlt : (lo + hi) / 2 < hi := by omega
      have hmidge : lo ≤ (lo + hi) / 2 := by omega
      have hmem : (lo + hi) / 2 < intervals.length := lt_of_lt_of_le hmidlt h2
      have hget : intervals.get? ((lo + hi) / 2) =
          some (intervals.get ⟨(lo + hi) / 2, hmem⟩) := List.get?_eq_get hmem
      simp only [bsrF, if_pos hlh, hget]
      by_cases hc : x < (intervals.get ⟨(lo + hi) / 2, hmem⟩).start
      · rw [if_pos hc]
        obtain ⟨r, hr, hr1, hr2⟩ := ih lo ((lo + hi) / 2) (by omega)
          (le_of_lt hmem) (by omega)
        exact ⟨r, hr, hr1, by omega⟩
      · rw [if_neg hc]
        obtain ⟨r, hr, hr1, hr2⟩ := ih ((lo + hi) / 2 + 1) hi (by omega) h2 (by omega)
        exact ⟨r, hr, by omega, hr2⟩
    · simp only [bsrF, if_neg hlh]
      exact ⟨lo, rfl, le_refl lo, h1⟩

theorem bslF_spec (intervals : List Feature) (x : Int)
    (hs : intervals.Pairwise (fun a b => a.start ≤ b.start)) :
    ∀ fuel lo hi, lo ≤ hi → hi ≤ intervals.length → hi - lo ≤ fuel →
    ∃ r, bslF intervals x fuel lo hi = .ok r ∧ lo ≤ r ∧ r ≤ hi ∧
      (∀ j, lo ≤ j → j < r → (intervals.getD j d0).start < x) ∧
      (∀ j, r ≤ j → j < hi → x ≤ (intervals.getD j d0).start) := by
  intro fuel
  induction fuel with
  | zero =>
    intro lo hi h1 _ h3
    exact ⟨lo, rfl, le_refl lo, h1, fun j hj1 hj2 => by omega,
      fun j hj1 hj2 => by omega⟩
  | succ fuel ih =>
    intro lo hi h1 h2 h3
    by_cases hlh : lo < hi
    · have hmidlt : (lo + hi) / 2 < hi := by omega
      have hmidge : lo ≤ (lo + hi) / 2 := by omega
      have hmem : (lo + hi) / 2 < intervals.length := lt_of_lt_of_le hmidlt h2
      have hget : intervals.get? ((lo + hi) / 2) =
          some (intervals.get ⟨(lo + hi) / 2, hmem⟩) := List.get?_eq_get hmem
      have hgd : intervals.getD ((lo + hi) / 2) d0 =
          intervals.get ⟨(lo + hi) / 2, hmem⟩ := List.getD_eq_get intervals d0 hmem
      simp only [bslF, if_pos hlh, hget]
      by_cases hc : (intervals.get ⟨(lo + hi) / 2, hmem⟩).start < x
      · rw [if_pos hc]
        obtain ⟨r, hr, hr1, hr2, hr3, hr4⟩ := ih ((lo + hi) / 2 + 1) hi (by omega) h2
          (by omega)
        refine ⟨r, hr, by omega, hr2, ?_, hr4⟩
        intro j hj1 hj2
        by_cases hjm : j ≤ (lo + hi) / 2
        · have : (intervals.getD j d0).start ≤ (intervals.getD ((lo + hi) / 2) d0).start :=
            sorted_getD_mono intervals hs hjm hmem
          rw [hgd] at this
          exact lt_of_le_of_lt this hc
        · exact hr3 j (by omega) hj2
      · rw [if_neg hc]
        obtain ⟨r, hr, hr1, hr2, hr3, hr4⟩ := ih lo ((lo + hi) / 2) (by omega)
          (le_of_lt hmem) (by omega)
        refine ⟨r, hr, hr1, by omega, hr3, ?_⟩
        intro j hj1 hj2
        by_cases hjm : j < (lo + hi) / 2
        · exact hr4 j hj1 hjm
        · have hjlen : j < intervals.length := lt_of_lt_of_le hj2 h2
          have : (intervals.getD ((lo + hi) / 2) d0).start ≤ (intervals.getD j d0).start :=
            sorted_getD_mono intervals hs (by omega) hjlen
          rw [hgd] at this
          omega
    · simp only [bslF, if_neg hlh]
      exact ⟨lo, rfl, le_refl lo, h1, fun j hj1 hj2 => by omega,
        fun j hj1 hj2 => by omega⟩

theorem bsrF_spec (intervals : List Feature) (x : Int)
    (hs : intervals.Pairwise (fun a b => a.start ≤ b.start)) :
    ∀ fuel lo hi, lo ≤ hi → hi ≤ intervals.length → hi - lo ≤ fuel →
    ∃ r, bsrF intervals x fuel lo hi = .ok r ∧ lo ≤ r ∧ r ≤ hi ∧
      (∀ j, lo ≤ j → j < r → (intervals.getD j d0).start ≤ x) ∧
      (∀ j, r ≤ j → j < hi → x < (intervals.getD j d0).start) := by
  intro fuel
  induction fuel with
  | zero =>
    intro lo hi h1 _ h3
    exact ⟨lo, rfl, le_refl lo, h1, fun j hj1 hj2 => by omega,
      fun j hj1 hj2 => by omega⟩
  | succ fuel ih =>
    intro lo hi h1 h2 h3
    by_cases hlh : lo < hi
    · have hmidlt : (lo + hi) / 2 < hi := by omega
      have hmidge : lo ≤ (lo + hi) / 2 := by omega
      have hmem : (lo + hi) / 2 < intervals.length := lt_of_lt_of_le hmidlt h2
      have hget : intervals.get? ((lo + hi) / 2) =
          some (intervals.get ⟨(lo + hi) / 2, hmem⟩) := List.get?_eq_get hmem
      have hgd : intervals.getD ((lo + hi) / 2) d0 =
          intervals.get ⟨(lo + hi) / 2, hmem⟩ := List.getD_eq_get intervals d0 hmem
      simp only [bsrF, if_pos hlh, hget]
      by_cases hc : x < (intervals.get ⟨(lo + hi) / 2, hmem⟩).start
      · rw [if_pos hc]
        obtain ⟨r, hr, hr1, hr2, hr3, hr4⟩ := ih lo ((lo + hi) / 2) (by omega)
          (le_of_lt hmem) (by omega)
        refine ⟨r, hr, hr1, by omega, hr3, ?_⟩
        intro j hj1 hj2
        by_cases hjm : j < (lo + hi) / 2
        · exact hr4 j hj1 hjm
        · have hjlen : j < intervals.length := lt_of_lt_of_le hj2 h2
          have : (intervals.getD ((lo + hi) / 2) d0).start ≤ (intervals.getD j d0).start :=
            sorted_getD_mono intervals hs (by omega) hjlen
          rw [hgd] at this
          omega
      · rw [if_neg hc]
        obtain ⟨r, hr, hr1, hr2, hr3, hr4⟩ := ih ((lo + hi) / 2 + 1) hi (by omega) h2
          (by omega)
        refine ⟨r, hr, by omega, hr2, ?_, hr4⟩
        intro j hj1 hj2
        by_cases hjm : j ≤ (lo + hi) / 2
        · have : (intervals.getD j d0).start ≤ (intervals.getD ((lo + hi) / 2) d0).start :=
            sorted_getD_mono intervals hs hjm hmem
          rw [hgd] at this
          omega
        · exact hr3 j (by omega) hj2
    · simp only [bsrF, if_neg hlh]
      exact ⟨lo, rfl, le_refl lo, h1, fun j hj1 hj2 => by omega,
        fun j hj1 hj2 => by omega⟩

/-- C10: for all well-formed features a and b, distance(a, b) equals
distance(b, a), the result is a nonnegative integer, it is zero exactly
when the two ranges overlap or touch, and otherwise it equals the gap
between the closer edges. -/
theorem c10_distance_props (a b : Feature) (ha : validF a) (hb : validF b) :
    distance a b = distance b a ∧ 0 ≤ distance a b ∧
    (distance a b = 0 ↔ ¬(a.end_ < b.start) ∧ ¬(b.end_ < a.start)) ∧
    (a.end_ < b.start → distance a b = b.start - a.end_) ∧
    (b.end_ < a.start → distance a b = a.start - b.end_) := by
  unfold validF at ha hb
  unfold distance
  split_ifs <;> omega

theorem c10_witness :
    (validF ⟨1, 2, 0, "", none, none⟩ ∧ validF ⟨12, 13, 0, "", none, none⟩) ∧
    (distance ⟨1, 2, 0, "", none, none⟩ ⟨12, 13, 0, "", none, none⟩ =
        distance ⟨12, 13, 0, "", none, none⟩ ⟨1, 2, 0, "", none, none⟩ ∧
      0 ≤ distance ⟨1, 2, 0, "", none, none⟩ ⟨12, 13, 0, "", none, none⟩ ∧
      (distance ⟨1, 2, 0, "", none, none⟩ ⟨12, 13, 0, "", none, none⟩ = 0 ↔
        ¬((2 : Int) < 12) ∧ ¬((13 : Int) < 1)) ∧
      ((2 : Int) < 12 → distance ⟨1, 2, 0, "", none, none⟩ ⟨12, 13, 0, "", none, none⟩ =
        12 - 2) ∧
      ((13 : Int) < 1 → distance ⟨1, 2, 0, "", none, none⟩ ⟨12, 13, 0, "", none, none⟩ =
        1 - 13)) :=
  ⟨⟨by decide, by decide⟩,
    c10_distance_props ⟨1, 2, 0, "", none, none⟩ ⟨12, 13, 0, "", none, none⟩
      (by decide) (by decide)⟩

/-- C9: upstream and downstream are pure dispatch on the query strand:
with strand -1, upstream is right and downstream is left; with strand 0
or +1, upstream is left and downstream is right. -/
theorem c9_strand_dispatch (fuel : Nat) (T : Intersecter) (f : Feature) (n : Int) :
    (f.strand = -1 → upstreamF fuel T f n = some (right T f n) ∧
      downstreamF fuel T f n = leftF fuel T f n) ∧
    ((f.strand = 0 ∨ f.strand = 1) → upstreamF fuel T f n = leftF fuel T f n ∧
      downstreamF fuel T f n = some (right T f n)) := by
  constructor
  · intro h
    unfold upstreamF downstreamF
    rw [if_pos h, if_pos h]
    exact ⟨rfl, rfl⟩
  · intro h
    have hne : f.strand ≠ -1 := by rcases h with h | h <;> omega
    unfold upstreamF downstreamF
    rw [if_neg hne, if_neg hne]
    exact ⟨rfl, rfl⟩

theorem c9_witness :
    upstreamF 5 docT fA 1 = some (right docT fA 1) ∧
    downstreamF 5 docT fA 1 = leftF 5 docT fA 1 :=
  (c9_strand_dispatch 5 docT fA 1).1 (by decide)

theorem knearestF_err (T : Intersecter) (f : Feature) (k : Int) (inc : Bool) :
    (knearestF T f k inc).1 = .error .zeroDivisionError := by
  simp only [knearestF, binsearch_left_start, binsearch_right_end]
  obtain ⟨il, hil, hil1, hil2⟩ := bslF_ok (ddGet T.intervals f.chrom).1
    (f.start - T.max_len) ((ddGet T.intervals f.chrom).1.length - 0) 0
    (ddGet T.intervals f.chrom).1.length (Nat.zero_le _) (le_refl _) (le_refl _)
  rw [hil]
  simp only []
  obtain ⟨ir, hir, _, _⟩ := bsrF_ok (ddGet T.intervals f.chrom).1 f.end_
    ((ddGet T.intervals f.chrom).1.length - il) il
    (ddGet T.intervals f.chrom).1.length hil2 (le_refl _) (le_refl _)
  rw [hir]

/-- C2: for every constructed Intersecter and every well-formed query,
in either the Feature form or the start/end/chrom form, knearest computes
its initial window and then raises ZeroDivisionError from the
unconditional 1/0 guarding the expansion loop, so it never returns a
result. -/
theorem c2_knearest_faults (ivs : List Feature) (T : Intersecter) (q : KQuery)
    (k : Int) (inc : Bool) (hT : init ivs = .ok T)
    (hq : ∀ s e c, q = .range s e c → s ≤ e) :
    (knearest T q k inc).1 = .error .zeroDivisionError := by
  cases q with
  | feat f => exact knearestF_err T f k inc
  | range s e c =>
    unfold knearest
    simp only []
    rw [if_pos (hq s e c rfl)]
    exact knearestF_err T ⟨s, e, 0, "", none, c⟩ k inc

theorem c2_witness :
    init docIvs = .ok docT ∧ ((1 : Int) ≤ 2) ∧
    (knearest docT (.range 1 2 none) 1 true).1 = .error .zeroDivisionError :=
  ⟨by decide, by decide,
    c2_knearest_faults docIvs docT (.range 1 2 none) 1 true (by decide)
      (by intro s e c h; cases h; decide)⟩

/-! Lemmas about the stable insertion sort. -/

theorem insertK_perm (key : Feature → Int) (x : Feature) :
    ∀ l : List Feature, (insertK key x l).Perm (x :: l) := by
  intro l
  induction l with
  | nil => exact List.Perm.refl _
  | cons y ys ih =>
    unfold insertK
    by_cases h : key x ≤ key y
    · rw [if_pos h]
    · rw [if_neg h]
      exact (ih.cons y).trans (List.Perm.swap x y ys)

theorem sortK_perm (key : Feature → Int) :
    ∀ l : List Feature, (sortK key l).Perm l := by
  intro l
  induction l with
  | nil => exact List.Perm.refl _
  | cons x xs ih =>
    unfold sortK
    exact (insertK_perm key x (sortK key xs)).trans (ih.cons x)

theorem mem_sortK (key : Feature → Int) (l : List Feature) (g : Feature) :
    g ∈ sortK key l ↔ g ∈ l :=
  (sortK_perm key l).mem_iff

theorem insertK_sorted (key : Feature → Int) (x : Feature) :
    ∀ l : List Feature, l.Pairwise (fun a b => key a ≤ key b) →
    (insertK key x l).Pairwise (fun a b => key a ≤ key b) := by
  intro l
  induction l with
  | nil => intro _; exact List.pairwise_singleton _ x
  | cons y ys ih =>
    intro hs
    rw [List.pairwise_cons] at hs
    unfold insertK
    by_cases h : key x ≤ key y
    · rw [if_pos h]
      rw [List.pairwise_cons]
      refine ⟨?_, List.pairwise_cons.mpr hs⟩
      intro b hb
      rcases List.mem_cons.mp hb with hb | hb
      · rw [hb]; exact h
      · exact le_trans h (hs.1 b hb)
    · rw [if_neg h]
      rw [List.pairwise_cons]
      refine ⟨?_, ih hs.2⟩
      intro b hb
      have hb2 : b ∈ x :: ys := (insertK_perm key x ys).mem_iff.mp hb
      rcases List.mem_cons.mp hb2 with hbx | hby
      · subst hbx; omega
      · exact hs.1 b hby

theorem sortK_sorted (key : Feature → Int) :
    ∀ l : List Feature, (sortK key l).Pairwise (fun a b => key a ≤ key b) := by
  intro l
  induction l with
  | nil => exact List.Pairwise.nil
  | cons x xs ih => exact insertK_sorted key x (sortK key xs) ih

theorem insertK_filter (key : Feature → Int) (x : Feature) (p : Feature → Bool)
    (hp : ∀ g, p g = true → key g = key x) :
    ∀ l : List Feature, (insertK key x l).filter p = (x :: l).filter p := by
  intro l
  induction l with
  | nil => rfl
  | cons y ys ih =>
    unfold insertK
    by_cases h : key x ≤ key y
    · rw [if_pos h]
    · rw [if_neg h]
      by_cases hy : p y = true
      · exact absurd (hp y hy) (by omega)
      · have hyf : p y = false := by
          cases hpy : p y
          · rfl
          · exact absurd hpy hy
        simp [List.filter_cons, hyf, ih]

theorem insertK_filter_ne (key : Feature → Int) (x : Feature) (v : Int)
    (hx : key x ≠ v) :
    ∀ l : List Feature,
    (insertK key x l).filter (fun g => decide (key g = v)) =
      l.filter (fun g => decide (key g = v)) := by
  intro l
  induction l with
  | nil => simp [insertK, List.filter_cons, hx]
  | cons y ys ih =>
    unfold insertK
    by_cases h : key x ≤ key y
    · rw [if_pos h]
      simp only [List.filter_cons]
      rw [if_neg (by simpa using hx)]
    · rw [if_neg h]
      simp only [List.filter_cons]
      rw [ih]

theorem sortK_filter_key (key : Feature → Int) (v : Int) :
    ∀ l : List Feature,
    (sortK key l).filter (fun g => decide (key g = v)) =
      l.filter (fun g => decide (key g = v)) := by
  intro l
  induction l with
  | nil => rfl
  | cons x xs ih =>
    unfold sortK
    by_cases hx : key x = v
    · rw [insertK_filter key x _ (fun g hg => by simpa [hx] using (of_decide_eq_true hg))]
      simp only [List.filter_cons]
      rw [ih]
    · rw [insertK_filter_ne key x v hx]
      rw [ih]
      simp only [List.filter_cons]
      rw [if_neg (by simpa using hx)]

/-! Lemmas about the partition map built by the constructor. -/

theorem lookupP_ddAppend (c : Option Int) (v : Feature) (k : Option Int) :
    ∀ m : PMap, lookupP (ddAppend m c v) k =
      if c = k then some (lookupD m k [] ++ [v]) else lookupP m k := by
  intro m
  induction m with
  | nil =>
    by_cases h : c = k
    · simp [ddAppend, lookupP, lookupD, if_pos h, h]
    · simp [ddAppend, lookupP, lookupD, if_neg h, h]
  | cons e rest ih =>
    obtain ⟨k2, l⟩ := e
    by_cases h2 : k2 = c
    · subst h2
      by_cases h : k2 = k
      · subst h
        simp [ddAppend, lookupP, lookupD]
      · simp [ddAppend, lookupP, lookupD, h]
    · by_cases h : k2 = k
      · subst h
        have hck : ¬(c = k2) := fun hc => h2 hc.symm
        simp [ddAppend, lookupP, lookupD, h2, hck]
      · simp [ddAppend, lookupP, lookupD, h2, h, ih]

theorem foldl_ddAppend_lookupD (k : Option Int) :
    ∀ (ivs : List Feature) (m : PMap),
    lookupD (ivs.foldl (fun m2 iv => ddAppend m2 iv.chrom iv) m) k [] =
      lookupD m k [] ++ ivs.filter (fun g => decide (g.chrom = k)) := by
  intro ivs
  induction ivs with
  | nil => intro m; simp
  | cons iv rest ih =>
    intro m
    rw [List.foldl_cons, ih (ddAppend m iv.chrom iv)]
    unfold lookupD
    rw [lookupP_ddAppend]
    by_cases h : iv.chrom = k
    · rw [if_pos h]
      simp [List.filter_cons, h, lookupD]
    · rw [if_neg h]
      simp [List.filter_cons, h]

theorem buildMap_lookupD (ivs : List Feature) (k : Option Int) :
    lookupD (buildMap ivs) k [] = ivs.filter (fun g => decide (g.chrom = k)) := by
  unfold buildMap
  rw [foldl_ddAppend_lookupD k ivs []]
  simp [lookupD, lookupP]

theorem lookupP_map_sort (k : Option Int) :
    ∀ m : PMap,
    lookupP (m.map (fun e => (e.1, sortK (fun g => g.start) e.2))) k =
      (lookupP m k).map (sortK (fun g => g.start)) := by
  intro m
  induction m with
  | nil => rfl
  | cons e rest ih =>
    obtain ⟨k2, l⟩ := e
    by_cases h : k2 = k
    · simp [lookupP, h]
    · simp [lookupP, h, ih]

theorem init_intervals (ivs : List Feature) (T : Intersecter)
    (hT : init ivs = .ok T) :
    T.intervals = (buildMap ivs).map (fun e => (e.1, sortK (fun g => g.start) e.2)) := by
  unfold init at hT
  cases hl : ivs.map (fun i => i.end_ - i.start) with
  | nil => rw [hl] at hT; exact absurd hT (by simp)
  | cons x xs =>
    rw [hl] at hT
    simp only [] at hT
    cases hT
    rfl

theorem init_lookupD (ivs : List Feature) (T : Intersecter)
    (hT : init ivs = .ok T) (k : Option Int) :
    lookupD T.intervals k [] =
      sortK (fun g => g.start) (ivs.filter (fun g => decide (g.chrom = k))) := by
  rw [init_intervals ivs T hT]
  unfold lookupD
  rw [lookupP_map_sort]
  cases hp : lookupP (buildMap ivs) k with
  | none =>
    have h2 := buildMap_lookupD ivs k
    unfold lookupD at h2
    rw [hp] at h2
    simp only [Option.getD_none, Option.map_none'] at h2 ⊢
    rw [← h2]
    rfl
  | some l =>
    have h2 := buildMap_lookupD ivs k
    unfold lookupD at h2
    rw [hp] at h2
    simp only [Option.getD_some, Option.map_some'] at h2 ⊢
    rw [← h2]

theorem foldl_max_ge (x : Int) : ∀ xs : List Int,
    x ≤ xs.foldl (fun a b => max a b) x ∧
    ∀ y ∈ xs, y ≤ xs.foldl (fun a b => max a b) x := by
  intro xs
  induction xs generalizing x with
  | nil => exact ⟨le_refl x, fun y hy => absurd hy (List.not_mem_nil y)⟩
  | cons z zs ih =>
    rw [List.foldl_cons]
    obtain ⟨ih1, ih2⟩ := ih (max x z)
    refine ⟨le_trans (le_max_left x z) ih1, ?_⟩
    intro y hy
    rcases List.mem_cons.mp hy with hy | hy
    · subst hy; exact le_trans (le_max_right x y) ih1
    · exact ih2 y hy

theorem foldl_max_mem (x : Int) : ∀ xs : List Int,
    xs.foldl (fun a b => max a b) x = x ∨ xs.foldl (fun a b => max a b) x ∈ xs := by
  intro xs
  induction xs generalizing x with
  | nil => exact Or.inl rfl
  | cons z zs ih =>
    rw [List.foldl_cons]
    rcases ih (max x z) with h | h
    · rcases le_total x z with hxz | hzx
      · right
        rw [h]
        rw [max_eq_right hxz]
        exact List.mem_cons_self z zs
      · left
        rw [h]
        exact max_eq_left hzx
    · right
      exact List.mem_cons_of_mem z h

theorem init_maxlen (ivs : List Feature) (T : Intersecter) (hT : init ivs = .ok T) :
    (∀ iv ∈ ivs, iv.end_ - iv.start ≤ T.max_len) ∧ 1 ≤ T.max_len ∧
    (T.max_len = 1 ∨ ∃ iv ∈ ivs, iv.end_ - iv.start = T.max_len) := by
  unfold init at hT
  cases hivs : ivs with
  | nil => subst hivs; exact absurd hT (by simp)
  | cons iv0 rest =>
    subst hivs
    simp only [List.map_cons] at hT
    cases hT
    set mx := (rest.map (fun i => i.end_ - i.start)).foldl (fun a b => max a b)
      (iv0.end_ - iv0.start) with hmx
    obtain ⟨hge0, hgeall⟩ := foldl_max_ge (iv0.end_ - iv0.start)
      (rest.map (fun i => i.end_ - i.start))
    constructor
    · intro iv hiv
      rcases List.mem_cons.mp hiv with h | h
      · subst h
        by_cases hc : mx < 1
        · simp only [if_pos hc]; omega
        · simp only [if_neg hc]; exact hge0
      · have hmem : iv.end_ - iv.start ∈ rest.map (fun i => i.end_ - i.start) :=
          List.mem_map_of_mem _ h
        have := hgeall _ hmem
        by_cases hc : mx < 1
        · simp only [if_pos hc]; omega
        · simp only [if_neg hc]; exact this
    · constructor
      · by_cases hc : mx < 1
        · simp only [if_pos hc]; omega
        · simp only [if_neg hc]; omega
      · by_cases hc : mx < 1
        · exact Or.inl (by simp [if_pos hc])
        · simp only [if_neg hc]
          right
          rcases foldl_max_mem (iv0.end_ - iv0.start)
            (rest.map (fun i => i.end_ - i.start)) with h | h
          · exact ⟨iv0, List.mem_cons_self _ _, h.symm⟩
          · obtain ⟨iv, hiv, hiveq⟩ := List.mem_map.mp h
            exact ⟨iv, List.mem_cons_of_mem _ hiv, hiveq⟩

theorem init_sortedStored (ivs : List Feature) (T : Intersecter)
    (hT : init ivs = .ok T) : sortedStored T := by
  intro k
  rw [init_lookupD ivs T hT k]
  exact sortK_sorted (fun g => g.start) _

theorem init_memStored (ivs : List Feature) (T : Intersecter)
    (hT : init ivs = .ok T) (k : Option Int) (g : Feature)
    (hg : g ∈ lookupD T.intervals k []) : g ∈ ivs := by
  rw [init_lookupD ivs T hT k] at hg
  exact List.mem_of_mem_filter ((mem_sortK _ _ g).mp hg)

theorem init_validStored (ivs : List Feature) (T : Intersecter)
    (hT : init ivs = .ok T) (hv : validL ivs) : validStored T :=
  fun k g hg => hv g (init_memStored ivs T hT k g hg)

theorem init_boundedStored (ivs : List Feature) (T : Intersecter)
    (hT : init ivs = .ok T) : boundedStored T :=
  fun k g hg => (init_maxlen ivs T hT).1 g (init_memStored ivs T hT k g hg)

/-- C6 (amended): construction succeeds for every nonempty finite input
collection, and afterwards every partition is sorted by ascending start,
stably with respect to input order for equal starts (the sorted partition
and the input restricted to that partition agree under every equal-start
filter), and max_len is the maximum of end - start over the entire input
clamped below at 1. Construction from the empty collection fails with
ValueError, because Python's max() of an empty sequence raises. -/
theorem c6_construction (ivs : List Feature) :
    (ivs ≠ [] → ∃ T, init ivs = .ok T) ∧
    (∀ T, init ivs = .ok T →
      (∀ k, (lookupD T.intervals k []).Pairwise (fun a b => a.start ≤ b.start)) ∧
      (∀ k, (lookupD T.intervals k []).Perm
        (ivs.filter (fun g => decide (g.chrom = k)))) ∧
      (∀ k s, (lookupD T.intervals k []).filter (fun g => decide (g.start = s)) =
        (ivs.filter (fun g => decide (g.chrom = k))).filter
          (fun g => decide (g.start = s))) ∧
      (∀ iv ∈ ivs, iv.end_ - iv.start ≤ T.max_len) ∧ 1 ≤ T.max_len ∧
      (T.max_len = 1 ∨ ∃ iv ∈ ivs, iv.end_ - iv.start = T.max_len)) := by
  constructor
  · intro hne
    cases hivs : ivs with
    | nil => exact absurd hivs hne
    | cons iv0 rest =>
      subst hivs
      exact ⟨_, rfl⟩
  · intro T hT
    obtain ⟨hm1, hm2, hm3⟩ := init_maxlen ivs T hT
    refine ⟨init_sortedStored ivs T hT, ?_, ?_, hm1, hm2, hm3⟩
    · intro k
      rw [init_lookupD ivs T hT k]
      exact sortK_perm _ _
    · intro k s
      rw [init_lookupD ivs T hT k]
      exact sortK_filter_key (fun g => g.start) s _

theorem c6_witness :
    (docIvs ≠ [] ∧ init docIvs = .ok docT) ∧
    ((lookupD docT.intervals none []).Pairwise (fun a b => a.start ≤ b.start) ∧
      (∀ iv ∈ docIvs, iv.end_ - iv.start ≤ docT.max_len) ∧ 1 ≤ docT.max_len) :=
  ⟨⟨by decide, by decide⟩,
    ((c6_construction docIvs).2 docT (by decide)).1 none,
    ((c6_construction docIvs).2 docT (by decide)).2.2.2.1,
    ((c6_construction docIvs).2 docT (by decide)).2.2.2.2.1⟩

/-- C6 counterexample: constructing an Intersecter from the empty
collection does not succeed; it raises ValueError from max([]). -/
theorem c6_counterexample : init ([] : List Feature) = .error .valueError := by
  decide

/-- C8: for every sequence sorted by ascending start and all indices
lo ≤ hi ≤ length, binsearch_left_start terminates without an index error
and returns the leftmost index in [lo, hi] whose start is at least x (hi
when none exists), and binsearch_right_end likewise returns the leftmost
index whose start exceeds x (hi when none exists); both use floor-division
midpoints and access only in-range indices. -/
theorem c8_binsearch (seq : List Feature) (x : Int) (lo hi : Nat)
    (hs : seq.Pairwise (fun a b => a.start ≤ b.start))
    (h1 : lo ≤ hi) (h2 : hi ≤ seq.length) :
    (∃ r, binsearch_left_start seq x lo hi = .ok r ∧ lo ≤ r ∧ r ≤ hi ∧
      (∀ j, lo ≤ j → j < r → (seq.getD j d0).start < x) ∧
      (∀ j, r ≤ j → j < hi → x ≤ (seq.getD j d0).start)) ∧
    (∃ r, binsearch_right_end seq x lo hi = .ok r ∧ lo ≤ r ∧ r ≤ hi ∧
      (∀ j, lo ≤ j → j < r → (seq.getD j d0).start ≤ x) ∧
      (∀ j, r ≤ j → j < hi → x < (seq.getD j d0).start)) :=
  ⟨bslF_spec seq x hs (hi - lo) lo hi h1 h2 (le_refl _),
   bsrF_spec seq x hs (hi - lo) lo hi h1 h2 (le_refl _)⟩

theorem c8_witness :
    (([fA, fB, fC, fD].Pairwise (fun a b => a.start ≤ b.start)) ∧ 0 ≤ 4 ∧
      [fA, fB, fC, fD].length = 4) ∧
    ((∃ r, binsearch_left_start [fA, fB, fC, fD] 3 0 4 = .ok r ∧ 0 ≤ r ∧ r ≤ 4 ∧
      (∀ j, 0 ≤ j → j < r → ([fA, fB, fC, fD].getD j d0).start < 3) ∧
      (∀ j, r ≤ j → j < 4 → 3 ≤ ([fA, fB, fC, fD].getD j d0).start)) ∧
    (∃ r, binsearch_right_end [fA, fB, fC, fD] 3 0 4 = .ok r ∧ 0 ≤ r ∧ r ≤ 4 ∧
      (∀ j, 0 ≤ j → j < r → ([fA, fB, fC, fD].getD j d0).start ≤ 3) ∧
      (∀ j, r ≤ j → j < 4 → 3 < ([fA, fB, fC, fD].getD j d0).start))) :=
  ⟨⟨by decide, by decide, by decide⟩,
   c8_binsearch [fA, fB, fC, fD] 3 0 4 (by decide) (by decide) (by decide)⟩

/-! Lemmas bridging the defaultdict access and stored invariants. -/

theorem ddGet_fst (m : PMap) (k : Option Int) : (ddGet m k).1 = lookupD m k [] := by
  unfold ddGet lookupD
  cases lookupP m k <;> rfl

theorem lookupP_append_empty (k k2 : Option Int) :
    ∀ m : PMap, lookupP (m ++ [(k, [])]) k2 =
      match lookupP m k2 with
      | some l => some l
      | none => if k = k2 then some [] else none := by
  intro m
  induction m with
  | nil => simp [lookupP]
  | cons e rest ih =>
    obtain ⟨k3, l⟩ := e
    by_cases h : k3 = k2
    · simp [lookupP, h]
    · simp [lookupP, h, ih]

theorem ddGet_lookupD (m : PMap) (k k2 : Option Int) :
    lookupD (ddGet m k).2 k2 [] = lookupD m k2 [] := by
  unfold ddGet
  cases hp : lookupP m k with
  | some l => rfl
  | none =>
    unfold lookupD
    rw [lookupP_append_empty k k2 m]
    cases hp2 : lookupP m k2 with
    | some l => rfl
    | none => by_cases h : k = k2 <;> simp [h]

theorem ddGet_Ext (m : PMap) (k : Option Int) : Ext m (ddGet m k).2 := by
  unfold ddGet
  cases hp : lookupP m k with
  | some l =>
    exact ⟨fun k2 l2 h => h, fun k2 h => Or.inl h⟩
  | none =>
    constructor
    · intro k2 l2 h
      rw [lookupP_append_empty k k2 m, h]
    · intro k2 h
      rw [lookupP_append_empty k k2 m, h]
      by_cases he : k = k2
      · simp [he]
      · simp [he]

theorem Ext_refl (m : PMap) : Ext m m :=
  ⟨fun _ _ h => h, fun _ h => Or.inl h⟩

theorem Ext_trans {a b c : PMap} (h1 : Ext a b) (h2 : Ext b c) : Ext a c := by
  constructor
  · intro k l h
    exact h2.1 k l (h1.1 k l h)
  · intro k h
    rcases h1.2 k h with hb | hb
    · exact h2.2 k hb
    · exact Or.inr (h2.1 k [] hb)

theorem validStored_ddGet (T : Intersecter) (k : Option Int)
    (h : validStored T) : validStored ⟨(ddGet T.intervals k).2, T.max_len⟩ := by
  intro k2 g hg
  simp only [] at hg
  rw [ddGet_lookupD] at hg
  exact h k2 g hg

theorem sortedStored_ddGet (T : Intersecter) (k : Option Int)
    (h : sortedStored T) : sortedStored ⟨(ddGet T.intervals k).2, T.max_len⟩ := by
  intro k2
  simp only []
  rw [ddGet_lookupD]
  exact h k2

theorem boundedStored_ddGet (T : Intersecter) (k : Option Int)
    (h : boundedStored T) : boundedStored ⟨(ddGet T.intervals k).2, T.max_len⟩ := by
  intro k2 g hg
  simp only [] at hg ⊢
  rw [ddGet_lookupD] at hg
  exact h k2 g hg

/-- Filtering the binary-search window equals filtering the whole
partition when everything outside the window fails the predicate. -/
theorem slice_filter_eq (L : List Feature) (P : Feature → Bool) (il ir : Nat)
    (h1 : il ≤ ir) (h2 : ir ≤ L.length)
    (hlow : ∀ j, j < il → P (L.getD j d0) = false)
    (hhigh : ∀ j, ir ≤ j → j < L.length → P (L.getD j d0) = false) :
    (pySlice L il ir).filter P = L.filter P := by
  have htake : (L.take il).filter P = [] := by
    rw [List.filter_eq_nil]
    intro a ha
    obtain ⟨n, hn, hget⟩ := List.mem_iff_getElem.mp ha
    have hlen := List.length_take il L
    have hn2 : n < il := by omega
    have hn3 : n < L.length := by
      have h4 : il ≤ L.length := le_trans h1 h2
      omega
    have heq : (L.take il)[n] = L[n] := List.getElem_take L
    have hgd : L.getD n d0 = L[n] := List.getD_eq_getElem L d0 hn3
    rw [← hget, heq, ← hgd]
    rw [hlow n hn2]
    exact Bool.false_ne_true
  have hdrop : ((L.drop il).drop (ir - il)).filter P = [] := by
    rw [List.drop_drop]
    have hir : il + (ir - il) = ir := by omega
    rw [hir]
    rw [List.filter_eq_nil]
    intro a ha
    obtain ⟨n, hn, hget⟩ := List.mem_iff_getElem.mp ha
    have hlen := List.length_drop ir L
    have hn3 : ir + n < L.length := by omega
    have heq : (L.drop ir)[n] = L[ir + n] := List.getElem_drop L
    have hgd : L.getD (ir + n) d0 = L[ir + n] := List.getD_eq_getElem L d0 hn3
    rw [← hget, heq, ← hgd]
    rw [hhigh (ir + n) (by omega) hn3]
    exact Bool.false_ne_true
  conv_rhs => rw [← List.take_append_drop il L]
  rw [List.filter_append, htake, List.nil_append]
  conv_rhs => rw [← List.take_append_drop (ir - il) (L.drop il)]
  rw [List.filter_append, hdrop, List.append_nil]
  rfl

/-- C1: find(start, end, chrom) on a constructed Intersecter returns
exactly the stored features of partition chrom whose distance to the
synthetic query Feature(start, end) is zero, in the order of the
partition's start-sorted sequence; an unknown or empty partition yields
the empty sequence and no error. -/
theorem c1_find_exact (ivs : List Feature) (T : Intersecter) (s e : Int)
    (c : Option Int) (hv : validL ivs) (hT : init ivs = .ok T) (hse : s ≤ e) :
    (find T s e c).1 = .ok ((lookupD T.intervals c []).filter
      (fun g => decide (distance g ⟨s, e, 0, "", none, none⟩ = 0))) := by
  have hsort := init_sortedStored ivs T hT c
  have hbound := init_boundedStored ivs T hT
  have hvalid := init_validStored ivs T hT hv
  simp only [find, ddGet_fst, binsearch_left_start, binsearch_right_end]
  obtain ⟨il, hil, hil0, hil1, hilp1, hilp2⟩ :=
    bslF_spec (lookupD T.intervals c []) (s - T.max_len) hsort
      ((lookupD T.intervals c []).length - 0) 0 (lookupD T.intervals c []).length
      (Nat.zero_le _) (le_refl _) (le_refl _)
  rw [hil]
  simp only []
  obtain ⟨ir, hir, hir0, hir1, hirp1, hirp2⟩ :=
    bsrF_spec (lookupD T.intervals c []) e hsort
      ((lookupD T.intervals c []).length - il) il (lookupD T.intervals c []).length
      hil1 (le_refl _) (le_refl _)
  rw [hir]
  simp only []
  rw [if_pos hse]
  have hlow : ∀ j, j < il →
      (fun g => decide (distance g ⟨s, e, 0, "", none, none⟩ = 0))
        ((lookupD T.intervals c []).getD j d0) = false := by
    intro j hj
    have hjlen : j < (lookupD T.intervals c []).length := by omega
    have hmem : (lookupD T.intervals c []).getD j d0 ∈ lookupD T.intervals c [] :=
      getD_mem _ hjlen
    have hb := hbound c _ hmem
    have hst := hilp1 j (Nat.zero_le j) hj
    have hend : ((lookupD T.intervals c []).getD j d0).end_ < s := by omega
    simp only [decide_eq_false_iff_not]
    unfold distance
    simp only []
    rw [if_pos hend]
    omega
  have hhigh : ∀ j, ir ≤ j → j < (lookupD T.intervals c []).length →
      (fun g => decide (distance g ⟨s, e, 0, "", none, none⟩ = 0))
        ((lookupD T.intervals c []).getD j d0) = false := by
    intro j hj1 hj2
    have hmem : (lookupD T.intervals c []).getD j d0 ∈ lookupD T.intervals c [] :=
      getD_mem _ hj2
    have hvg := hvalid c _ hmem
    have hst := hirp2 j hj1 hj2
    unfold validF at hvg
    simp only [decide_eq_false_iff_not]
    unfold distance
    simp only []
    rw [if_neg (by omega), if_pos (by omega)]
    omega
  exact congrArg Except.ok (slice_filter_eq (lookupD T.intervals c [])
    (fun g => decide (distance g ⟨s, e, 0, "", none, none⟩ = 0)) il ir hir0 hir1
    hlow hhigh)

theorem c1_witness :
    (validL docIvs ∧ init docIvs = .ok docT ∧ (2 : Int) ≤ 5) ∧
    (find docT 2 5 none).1 = .ok ((lookupD docT.intervals none []).filter
      (fun g => decide (distance g ⟨2, 5, 0, "", none, none⟩ = 0))) :=
  ⟨⟨by decide, by decide, by decide⟩,
   c1_find_exact docIvs docT 2 5 none (by decide) (by decide) (by decide)⟩

/-! State effects of the query operations (claim C7). -/

theorem leftStep_state (T : Intersecter) (f : Feature) (n : Int) :
    (leftStep T f n).2 = ⟨(ddGet T.intervals f.chrom).2, T.max_len⟩ := by
  simp only [leftStep]
  repeat' split
  all_goals rfl

theorem find_state (T : Intersecter) (s e : Int) (c : Option Int) :
    (find T s e c).2 = ⟨(ddGet T.intervals c).2, T.max_len⟩ := by
  simp only [find]
  repeat' split
  all_goals rfl

theorem right_state (T : Intersecter) (f : Feature) (n : Int) :
    (right T f n).2 = ⟨(ddGet T.intervals f.chrom).2, T.max_len⟩ := by
  simp only [right]
  repeat' split
  all_goals rfl

theorem knearestF_state (T : Intersecter) (f : Feature) (k : Int) (inc : Bool) :
    (knearestF T f k inc).2 = ⟨(ddGet T.intervals f.chrom).2, T.max_len⟩ := by
  simp only [knearestF]
  repeat' split
  all_goals rfl

theorem leftF_state : ∀ (fuel : Nat) (T : Intersecter) (f : Feature) (n : Int)
    (r : Except PyErr (List Feature)) (T2 : Intersecter),
    leftF fuel T f n = some (r, T2) →
    T2.max_len = T.max_len ∧ Ext T.intervals T2.intervals := by
  intro fuel
  induction fuel with
  | zero => intro T f n r T2 h; exact absurd h (by simp [leftF])
  | succ fuel ih =>
    intro T f n r T2 h
    rw [leftF] at h
    rcases hstep : leftStep T f n with ⟨step, T1⟩
    rw [hstep] at h
    have hT1 : T1 = ⟨(ddGet T.intervals f.chrom).2, T.max_len⟩ := by
      have := leftStep_state T f n
      rw [hstep] at this
      exact this
    cases step with
    | ret r2 =>
      simp only [] at h
      injection h with h2
      injection h2 with hr hT2
      subst hT2
      rw [hT1]
      exact ⟨rfl, ddGet_Ext T.intervals f.chrom⟩
    | rec_ results f2 n2 =>
      simp only [] at h
      cases hrec : leftF fuel T1 f2 n2 with
      | none => rw [hrec] at h; exact absurd h (by simp)
      | some pr =>
        obtain ⟨r3, T3⟩ := pr
        rw [hrec] at h
        obtain ⟨h3, h4⟩ := ih T1 f2 n2 r3 T3 hrec
        have hml : T1.max_len = T.max_len := by rw [hT1]
        have hext : Ext T.intervals T3.intervals := by
          refine Ext_trans ?_ h4
          rw [hT1]
          exact ddGet_Ext T.intervals f.chrom
        cases r3 with
        | ok rec2 =>
          simp only [] at h
          injection h with h2
          injection h2 with hr hT2
          subst hT2
          exact ⟨by omega, hext⟩
        | error e2 =>
          simp only [] at h
          injection h with h2
          injection h2 with hr hT2
          subst hT2
          exact ⟨by omega, hext⟩

/-- C7 (amended): every query call preserves max_len and every existing
partition's sequence; however, because the partition mapping is a
defaultdict, a call that looks up a partition key absent from the mapping
(including the None key used by left's recursive widening) inserts that
key with an empty sequence, so the key set can grow. Query results are
unaffected by such insertions. -/
theorem c7_state_effects (ivs : List Feature) (T : Intersecter)
    (hT : init ivs = .ok T) :
    (∀ s e c, (find T s e c).2.max_len = T.max_len ∧
      Ext T.intervals (find T s e c).2.intervals) ∧
    (∀ f n, (right T f n).2.max_len = T.max_len ∧
      Ext T.intervals (right T f n).2.intervals) ∧
    (∀ fuel f n r T2, leftF fuel T f n = some (r, T2) →
      T2.max_len = T.max_len ∧ Ext T.intervals T2.intervals) ∧
    (∀ fuel f n r T2, upstreamF fuel T f n = some (r, T2) →
      T2.max_len = T.max_len ∧ Ext T.intervals T2.intervals) ∧
    (∀ fuel f n r T2, downstreamF fuel T f n = some (r, T2) →
      T2.max_len = T.max_len ∧ Ext T.intervals T2.intervals) ∧
    (∀ q k inc, (knearest T q k inc).2.max_len = T.max_len ∧
      Ext T.intervals (knearest T q k inc).2.intervals) := by
  have hfind : ∀ s e c, (find T s e c).2.max_len = T.max_len ∧
      Ext T.intervals (find T s e c).2.intervals := by
    intro s e c
    rw [find_state]
    exact ⟨rfl, ddGet_Ext T.intervals c⟩
  have hright : ∀ f n, (right T f n).2.max_len = T.max_len ∧
      Ext T.intervals (right T f n).2.intervals := by
    intro f n
    rw [right_state]
    exact ⟨rfl, ddGet_Ext T.intervals f.chrom⟩
  refine ⟨hfind, hright, fun fuel => leftF_state fuel T, ?_, ?_, ?_⟩
  · intro fuel f n r T2 h
    unfold upstreamF at h
    by_cases hs : f.strand = -1
    · rw [if_pos hs] at h
      injection h with h2
      have := hright f n
      rw [h2] at this
      exact this
    · rw [if_neg hs] at h
      exact leftF_state fuel T f n r T2 h
  · intro fuel f n r T2 h
    unfold downstreamF at h
    by_cases hs : f.strand = -1
    · rw [if_pos hs] at h
      exact leftF_state fuel T f n r T2 h
    · rw [if_neg hs] at h
      injection h with h2
      have := hright f n
      rw [h2] at this
      exact this
  · intro q k inc
    cases q with
    | feat f =>
      unfold knearest
      simp only []
      rw [knearestF_state]
      exact ⟨rfl, ddGet_Ext T.intervals f.chrom⟩
    | range s e c =>
      unfold knearest
      simp only []
      by_cases hse : s ≤ e
      · rw [if_pos hse]
        rw [knearestF_state]
        exact ⟨rfl, ddGet_Ext T.intervals c⟩
      · rw [if_neg hse]
        exact ⟨rfl, Ext_refl T.intervals⟩

theorem c7_witness :
    init docIvs = .ok docT ∧
    ((find docT 2 5 none).2.max_len = docT.max_len ∧
      Ext docT.intervals (find docT 2 5 none).2.intervals) :=
  ⟨by decide, (c7_state_effects docIvs docT (by decide)).1 2 5 none⟩

/-- C7 counterexample: find with an unknown partition key mutates the
state: the key set of the partition mapping grows by the queried key
(defaultdict inserts an empty list), so the mapping is not identical
before and after the call. -/
theorem c7_counterexample :
    init [c7v] = .ok c7T ∧ lookupP c7T.intervals none = none ∧
    lookupP (find c7T 0 1 none).2.intervals none = some [] := by
  exact ⟨by decide, by decide, by decide⟩

/-! Distance formulas on well-formed features. -/

theorem distance_pure_left {f x : Feature} (hf : validF f) (hx : validF x)
    (h : x.end_ < f.start) :
    distance f x = f.start - x.end_ ∧ distance x f = f.start - x.end_ := by
  unfold validF at hf hx
  unfold distance
  constructor
  · rw [if_neg (by omega), if_pos h]
  · rw [if_pos h]

theorem distance_pure_right {f x : Feature} (h : f.end_ < x.start) :
    distance f x = x.start - f.end_ := by
  unfold distance
  rw [if_pos h]

theorem distance_comm {f x : Feature} (hf : validF f) (hx : validF x) :
    distance f x = distance x f := by
  unfold validF at hf hx
  unfold distance
  split_ifs <;> omega

/-! Pairwise helpers. -/

theorem pairwise_getLast {R : Feature → Feature → Prop} :
    ∀ (l : List Feature), l.Pairwise R → ∀ a, l.getLast? = some a →
    ∀ x ∈ l, x = a ∨ R x a := by
  intro l
  induction l with
  | nil => intro _ a ha; exact absurd ha (by simp)
  | cons y ys ih =>
    intro hp a ha x hx
    rw [List.pairwise_cons] at hp
    cases hys : ys with
    | nil =>
      subst hys
      simp [List.getLast?] at ha
      rcases List.mem_cons.mp hx with h | h
      · subst ha; exact Or.inl h
      · exact absurd h (by simp)
    | cons z zs =>
      subst hys
      have ha2 : (z :: zs).getLast? = some a := by
        rw [← ha]
        rfl
      rcases List.mem_cons.mp hx with h | h
      · subst h
        right
        exact hp.1 a (List.mem_of_mem_getLast? ha2)
      · exact ih hp.2 a ha2 x h

theorem getD_take (l : List Feature) (m j : Nat) (hj : j < m)
    (hj2 : j < l.length) : (l.take m).getD j d0 = l.getD j d0 := by
  have hlen : j < (l.take m).length := by
    rw [List.length_take]
    omega
  rw [List.getD_eq_getElem _ d0 hlen, List.getD_eq_getElem _ d0 hj2]
  exact List.getElem_take l

theorem getD_append_left (l l2 : List Feature) (j : Nat) (hj : j < l.length) :
    ((l ++ l2).getD j d0) = l.getD j d0 := by
  have hlen : j < (l ++ l2).length := by
    rw [List.length_append]
    omega
  rw [List.getD_eq_getElem _ d0 hlen, List.getD_eq_getElem _ d0 hj]
  exact List.getElem_append_left hj

/-! Characterization of one body of left. -/

theorem base_mem_props (L : List Feature) (f : Feature) (il ir : Nat) :
    ∀ x ∈ (pySlice L il ir).filter
      (fun o => decide (o.end_ < f.start) && decide (distance f o ≠ 0)),
    x ∈ L ∧ x.end_ < f.start ∧ distance f x ≠ 0 := by
  intro x hx
  obtain ⟨hmem, hp⟩ := List.mem_filter.mp hx
  have hmem2 : x ∈ L := by
    unfold pySlice at hmem
    exact List.drop_subset il L (List.take_subset _ _ hmem)
  rw [Bool.and_eq_true] at hp
  exact ⟨hmem2, of_decide_eq_true hp.1, of_decide_eq_true hp.2⟩

theorem pySliceTo_take (l : List Feature) (i : Int) : ∃ m, pySliceTo l i = l.take m :=
  ⟨_, rfl⟩

theorem gapLoop_ok_some (f : Feature) (res : List Feature) :
    ∀ k i out, gapLoop f res i k = .ok (some out) → ∃ m, out = res.take m := by
  intro k
  induction k with
  | zero => intro i out h; exact absurd h (by simp [gapLoop])
  | succ k ih =>
    intro i out h
    unfold gapLoop at h
    cases h1 : pyGetI res (i - 1) with
    | none => rw [h1] at h; simp at h
    | some a =>
      rw [h1] at h
      cases h2 : pyGetI res i with
      | none => rw [h2] at h; simp at h
      | some b =>
        rw [h2] at h
        simp only [] at h
        by_cases hd : distance f a ≠ distance f b
        · rw [if_pos hd] at h
          injection h with h3
          injection h3 with h4
          rw [← h4]
          exact pySliceTo_take res i
        · rw [if_neg hd] at h
          exact ih (i + 1) out h

/-- The possible outcomes of one body of left: an exception; a prefix of
the stably distance-sorted candidate list; or a widening recursion whose
collected results are the whole sorted candidate list, whose new query
keeps the end, drops the partition key to None, and strictly lowers the
start, and which can only happen while some stored feature of the current
partition starts below f.start - max_len - 1. -/
theorem leftStep_spec (T : Intersecter) (f : Feature) (n : Int)
    (hs : sortedStored T) (hv : validStored T) :
    (∃ e T1, leftStep T f n = (.ret (.error e), T1)) ∨
    (∃ base m T1,
      (∀ x ∈ base, x ∈ lookupD T.intervals f.chrom [] ∧ x.end_ < f.start ∧
        distance f x ≠ 0) ∧
      leftStep T f n =
        (.ret (.ok ((sortK (fun o => distance o f) base).take m)), T1)) ∨
    (∃ base f2 n2 T1,
      (∀ x ∈ base, x ∈ lookupD T.intervals f.chrom [] ∧ x.end_ < f.start ∧
        distance f x ≠ 0) ∧
      f2.end_ = f.end_ ∧ f2.chrom = none ∧ validF f2 ∧ f2.start < f.start ∧
      ((∃ lastr, (sortK (fun o => distance o f) base).getLast? = some lastr ∧
        f2.start = lastr.start) ∨
        (sortK (fun o => distance o f) base = [] ∧ f2.start = f.start - 1)) ∧
      (∃ g, g ∈ lookupD T.intervals f.chrom [] ∧
        g.start < f.start - T.max_len - 1) ∧
      leftStep T f n = (.rec_ (sortK (fun o => distance o f) base) f2 n2, T1)) := by
  have hsL : (lookupD T.intervals f.chrom []).Pairwise
      (fun a b => a.start ≤ b.start) := hs f.chrom
  simp only [leftStep, ddGet_fst]
  set L := lookupD T.intervals f.chrom [] with hLdef
  cases h1 : binsearch_left_start L f.start 0 L.length with
  | error e => exact Or.inl ⟨e, _, rfl⟩
  | ok ir0 =>
    simp only []
    have hir0 : ir0 ≤ L.length := by
      obtain ⟨r1, hr1, _, hr1b, _, _⟩ :=
        bslF_spec L f.start hsL (L.length - 0) 0 L.length (Nat.zero_le _)
          (le_refl _) (le_refl _)
      unfold binsearch_left_start at h1
      rw [h1] at hr1
      injection hr1 with hr1
      omega
    cases h2 : binsearch_left_start L (f.start - T.max_len - 1) 0 (ir0 + 1 - 1) with
    | error e => exact Or.inl ⟨e, _, rfl⟩
    | ok ileft =>
      simp only []
      obtain ⟨r2, hr2, hr2a, hr2b, hr2c, hr2d⟩ :=
        bslF_spec L (f.start - T.max_len - 1) hsL ((ir0 + 1 - 1) - 0) 0
          (ir0 + 1 - 1) (Nat.zero_le _) (by omega) (le_refl _)
      unfold binsearch_left_start at h2
      rw [h2] at hr2
      injection hr2 with hr2
      subst hr2
      set bse := (pySlice L ileft (ir0 + 1)).filter
        (fun o => decide (o.end_ < f.start) && decide (distance f o ≠ 0)) with hbsedef
      set res := sortK (fun o => distance o f) bse with hresdef
      have hbase : ∀ x ∈ bse, x ∈ L ∧ x.end_ < f.start ∧ distance f x ≠ 0 :=
        base_mem_props L f ileft (ir0 + 1)
      by_cases hlen : ((res.length : Int) = n)
      · rw [if_pos hlen]
        refine Or.inr (Or.inl ⟨bse, res.length,
          ⟨(ddGet T.intervals f.chrom).2, T.max_len⟩, hbase, ?_⟩)
        rw [List.take_length]
      · rw [if_neg hlen]
        cases h3 : gapLoop f res n ((res.length : Int) - n).toNat with
        | error e => exact Or.inl ⟨e, _, rfl⟩
        | ok o =>
          cases o with
          | some out =>
            obtain ⟨m, hm⟩ := gapLoop_ok_some f res _ _ _ h3
            subst hm
            exact Or.inr (Or.inl ⟨bse, m, _, hbase, rfl⟩)
          | none =>
            simp only []
            by_cases hil : ileft = 0
            · rw [if_pos hil]
              refine Or.inr (Or.inl ⟨bse, res.length,
                ⟨(ddGet T.intervals f.chrom).2, T.max_len⟩, hbase, ?_⟩)
              rw [List.take_length]
            · rw [if_neg hil]
              have hsmall : ∃ g, g ∈ L ∧ g.start < f.start - T.max_len - 1 := by
                have h0len : 0 < L.length := by omega
                exact ⟨L.getD 0 d0, getD_mem _ h0len, hr2c 0 (le_refl 0) (by omega)⟩
              cases h4 : res.getLast? with
              | some lastr =>
                simp only []
                have hlmem : lastr ∈ L ∧ lastr.end_ < f.start ∧
                    distance f lastr ≠ 0 := by
                  apply hbase
                  rw [hresdef] at h4
                  rw [← mem_sortK (fun o => distance o f)]
                  exact List.mem_of_mem_getLast? h4
                have hlval : validF lastr := hv f.chrom lastr (hLdef ▸ hlmem.1)
                unfold validF at hlval
                by_cases hg : lastr.start ≤ f.end_
                · rw [if_pos hg]
                  refine Or.inr (Or.inr ⟨bse, ⟨lastr.start, f.end_, 0, "", none, none⟩,
                    n - (res.length : Int),
                    ⟨(ddGet T.intervals f.chrom).2, T.max_len⟩, hbase, rfl, rfl, hg, ?_,
                    Or.inl ⟨lastr, h4, rfl⟩, hsmall, rfl⟩)
                  have h5 := hlmem.2.1
                  simp only []
                  omega
                · rw [if_neg hg]
                  exact Or.inl ⟨.assertionError, _, rfl⟩
              | none =>
                simp only []
                by_cases hg : f.start - 1 ≤ f.end_
                · rw [if_pos hg]
                  refine Or.inr (Or.inr ⟨bse, ⟨f.start - 1, f.end_, 0, "", none, none⟩,
                    n, ⟨(ddGet T.intervals f.chrom).2, T.max_len⟩, hbase, rfl, rfl, hg, ?_,
                    Or.inr ⟨List.getLast?_eq_none.mp h4, rfl⟩, hsmall, rfl⟩)
                  simp only []
                  omega
                · rw [if_neg hg]
                  exact Or.inl ⟨.assertionError, _, rfl⟩

/-! Direction and ordering invariants of left (claim C4, left half). -/

theorem sortK_pairwise_dist (f : Feature) (base : List Feature)
    (hvf : validF f) (hvb : ∀ x ∈ base, validF x) :
    (sortK (fun o => distance o f) base).Pairwise
      (fun a b => distance f a ≤ distance f b) := by
  have hp := sortK_sorted (fun o => distance o f) base
  refine List.Pairwise.imp_of_mem ?_ hp
  intro a b ha hb hle
  have hva := hvb a ((mem_sortK _ _ a).mp ha)
  have hvb2 := hvb b ((mem_sortK _ _ b).mp hb)
  rw [distance_comm hvf hva, distance_comm hvf hvb2]
  exact hle

theorem leftF_ok : ∀ (fuel : Nat) (T : Intersecter) (f : Feature) (n : Int)
    (out : List Feature) (T2 : Intersecter),
    sortedStored T → validStored T → validF f →
    leftF fuel T f n = some (.ok out, T2) →
    (∀ x ∈ out, (∃ k, x ∈ lookupD T.intervals k []) ∧ x.end_ < f.start ∧
      distance f x ≠ 0) ∧
    out.Pairwise (fun a b => distance f a ≤ distance f b) := by
  intro fuel
  induction fuel with
  | zero => intro T f n out T2 _ _ _ h; exact absurd h (by simp [leftF])
  | succ fuel ih =>
    intro T f n out T2 hs hv hvf h
    rw [leftF] at h
    rcases leftStep_spec T f n hs hv with ⟨e, T1, hstep⟩ |
      ⟨base, m, T1, hbase, hstep⟩ |
      ⟨base, f2, n2, T1, hbase, hf2e, hf2c, hf2v, hf2lt, hlast, hsmall, hstep⟩
    · rw [hstep] at h
      simp at h
    · rw [hstep] at h
      simp only [] at h
      injection h with h2
      injection h2 with hfst hsnd
      injection hfst with hout
      subst hout
      have hvb : ∀ x ∈ base, validF x := fun x hx => hv f.chrom x (hbase x hx).1
      constructor
      · intro x hx
        have hx2 : x ∈ base := (mem_sortK _ _ x).mp
          (List.take_subset m _ hx)
        obtain ⟨hm, he, hd⟩ := hbase x hx2
        exact ⟨⟨f.chrom, hm⟩, he, hd⟩
      · exact List.Pairwise.sublist (List.take_sublist m _)
          (sortK_pairwise_dist f base hvf hvb)
    · rw [hstep] at h
      simp only [] at h
      cases hrec : leftF fuel T1 f2 n2 with
      | none => rw [hrec] at h; simp at h
      | some pr =>
        obtain ⟨r3, T3⟩ := pr
        rw [hrec] at h
        cases r3 with
        | error e => simp at h
        | ok rec2 =>
          simp only [] at h
          injection h with h2
          injection h2 with hfst hsnd
          injection hfst with hout
          subst hout
          have hT1 : T1 = ⟨(ddGet T.intervals f.chrom).2, T.max_len⟩ := by
            have hst := leftStep_state T f n
            rw [hstep] at hst
            exact hst
          have hs1 : sortedStored T1 := by
            rw [hT1]; exact sortedStored_ddGet T f.chrom hs
          have hv1 : validStored T1 := by
            rw [hT1]; exact validStored_ddGet T f.chrom hv
          obtain ⟨ihmem, ihpw⟩ := ih T1 f2 n2 rec2 T3 hs1 hv1 hf2v hrec
          have htrans : ∀ x, (∃ k, x ∈ lookupD T1.intervals k []) →
              ∃ k, x ∈ lookupD T.intervals k [] := by
            rintro x ⟨k, hk⟩
            rw [hT1] at hk
            simp only [] at hk
            rw [ddGet_lookupD] at hk
            exact ⟨k, hk⟩
          have hvb : ∀ x ∈ base, validF x := fun x hx => hv f.chrom x (hbase x hx).1
          have hvrec : ∀ x ∈ rec2, validF x := by
            intro x hx
            obtain ⟨⟨k, hk⟩, _, _⟩ := ihmem x hx
            exact hv1 k x hk
          have hrecmem : ∀ x ∈ rec2, x.end_ < f.start ∧ distance f x ≠ 0 := by
            intro x hx
            obtain ⟨_, hxe, _⟩ := ihmem x hx
            have hxe2 : x.end_ < f.start := by omega
            have hvx := hvrec x hx
            obtain ⟨hd1, _⟩ := distance_pure_left hvf hvx hxe2
            unfold validF at hvf hvx
            exact ⟨hxe2, by omega⟩
          constructor
          · intro x hx
            rcases List.mem_append.mp hx with hx | hx
            · obtain ⟨hm2, he, hd⟩ := hbase x ((mem_sortK _ _ x).mp hx)
              exact ⟨⟨f.chrom, hm2⟩, he, hd⟩
            · obtain ⟨hk, _, _⟩ := ihmem x hx
              exact ⟨htrans x hk, hrecmem x hx⟩
          · rw [List.pairwise_append]
            refine ⟨sortK_pairwise_dist f base hvf hvb, ?_, ?_⟩
            · refine List.Pairwise.imp_of_mem ?_ ihpw
              intro a b ha hb hle
              have hva := hvrec a ha
              have hvb2 := hvrec b hb
              obtain ⟨_, hae, _⟩ := ihmem a ha
              obtain ⟨_, hbe, _⟩ := ihmem b hb
              have hae2 : a.end_ < f.start := by omega
              have hbe2 : b.end_ < f.start := by omega
              obtain ⟨hda, _⟩ := distance_pure_left hvf hva hae2
              obtain ⟨hdb, _⟩ := distance_pure_left hvf hvb2 hbe2
              obtain ⟨hda2, _⟩ := distance_pure_left hf2v hva hae
              obtain ⟨hdb2, _⟩ := distance_pure_left hf2v hvb2 hbe
              omega
            · intro a ha b hb
              rcases hlast with ⟨lastr, hl4, hlst⟩ | ⟨hnil, _⟩
              · have hlmem : lastr ∈ base := by
                  rw [← mem_sortK (fun o => distance o f)]
                  exact List.mem_of_mem_getLast? hl4
                obtain ⟨hlm, hle2, _⟩ := hbase lastr hlmem
                have hvl := hv f.chrom lastr hlm
                have hva := hvb a ((mem_sortK _ _ a).mp ha)
                have halast : distance f a ≤ distance f lastr := by
                  rcases pairwise_getLast _ (sortK_sorted (fun o => distance o f)
                    base) lastr hl4 a ha with heq | hlt2
                  · rw [heq]
                  · rw [distance_comm hvf hva, distance_comm hvf hvl]
                    exact hlt2
                obtain ⟨hdl, _⟩ := distance_pure_left hvf hvl hle2
                have hvb2 := hvrec b hb
                obtain ⟨_, hbe, _⟩ := ihmem b hb
                have hbe2 : b.end_ < f.start := by omega
                obtain ⟨hdb, _⟩ := distance_pure_left hvf hvb2 hbe2
                unfold validF at hvl
                omega
              · rw [hnil] at ha
                exact absurd ha (List.not_mem_nil a)

/-! Direction and ordering invariants of right (claim C4, right half). -/

theorem get?_getD (l : List Feature) (j : Nat) (hj : j < l.length) :
    l.get? j = some (l.getD j d0) := by
  rw [List.getD_eq_getElem l d0 hj]
  exact List.get?_eq_get hj

theorem rightLoop_ok (f : Feature) (n : Int) (intervals : List Feature)
    (hs : intervals.Pairwise (fun a b => a.start ≤ b.start)) :
    ∀ (fuel iright : Nat) (results : List Feature),
    (∀ x ∈ results, x ∈ intervals ∧ f.end_ < x.start) →
    results.Pairwise (fun a b => distance f a ≤ distance f b) →
    (∀ x ∈ results, ∀ j, iright ≤ j → j < intervals.length →
      distance f x ≤ distance f (intervals.getD j d0)) →
    (∀ j, iright ≤ j → j < intervals.length →
      f.end_ < (intervals.getD j d0).start) →
    ∀ out, rightLoop f n intervals intervals.length fuel iright results = .ok out →
    (∀ x ∈ out, x ∈ intervals ∧ f.end_ < x.start) ∧
    out.Pairwise (fun a b => distance f a ≤ distance f b) := by
  intro fuel
  induction fuel with
  | zero =>
    intro iright results h1 h2 _ _ out h
    unfold rightLoop at h
    injection h with h5
    subst h5
    exact ⟨h1, h2⟩
  | succ fuel ih =>
    intro iright results h1 h2 h3 h4 out h
    rw [rightLoop] at h
    by_cases hlt : iright < intervals.length
    · rw [if_pos hlt] at h
      simp only [] at h
      have hscan : ∀ results2 : List Feature,
          (∀ x ∈ results2, x ∈ intervals ∧ f.end_ < x.start) →
          results2.Pairwise (fun a b => distance f a ≤ distance f b) →
          (∀ x ∈ results2, ∀ j, iright ≤ j → j < intervals.length →
            distance f x ≤ distance f (intervals.getD j d0)) →
          (match intervals.get? iright with
            | none => Except.error PyErr.indexError
            | some other =>
              if distance other f = 0 then
                rightLoop f n intervals intervals.length fuel (iright + 1) results2
              else
                rightLoop f n intervals intervals.length fuel (iright + 1)
                  (results2 ++ [other])) = .ok out →
          (∀ x ∈ out, x ∈ intervals ∧ f.end_ < x.start) ∧
          out.Pairwise (fun a b => distance f a ≤ distance f b) := by
        intro results2 g1 g2 g3 hm
        rw [get?_getD intervals iright hlt] at hm
        simp only [] at hm
        by_cases hz : distance (intervals.getD iright d0) f = 0
        · rw [if_pos hz] at hm
          refine ih (iright + 1) results2 g1 g2 ?_ ?_ out hm
          · intro x hx j hj1 hj2
            exact g3 x hx j (by omega) hj2
          · intro j hj1 hj2
            exact h4 j (by omega) hj2
        · rw [if_neg hz] at hm
          have hoth := h4 iright (le_refl _) hlt
          have hothmem := getD_mem intervals hlt
          refine ih (iright + 1) (results2 ++ [intervals.getD iright d0]) ?_ ?_ ?_ ?_ out hm
          · intro x hx
            rcases List.mem_append.mp hx with hx | hx
            · exact g1 x hx
            · rw [List.mem_singleton.mp hx]
              exact ⟨hothmem, hoth⟩
          · rw [List.pairwise_append]
            refine ⟨g2, List.pairwise_singleton _ _, ?_⟩
            intro a ha b hb
            rw [List.mem_singleton.mp hb]
            exact g3 a ha iright (le_refl _) hlt
          · intro x hx j hj1 hj2
            rcases List.mem_append.mp hx with hx | hx
            · exact g3 x hx j (by omega) hj2
            · rw [List.mem_singleton.mp hx]
              rw [distance_pure_right hoth, distance_pure_right (h4 j (by omega) hj2)]
              have := sorted_getD_mono intervals hs (le_of_lt (by omega : iright < j)) hj2
              omega
          · intro j hj1 hj2
            exact h4 j (by omega) hj2
      by_cases hni : n < (results.length : Int)
      · rw [if_pos hni] at h
        cases hga : pyGetI results ((results.length : Int) - 1) with
        | none =>
          rw [hga] at h
          simp at h
        | some a =>
          rw [hga] at h
          cases hgb : pyGetI results ((results.length : Int) - 2) with
          | none =>
            rw [hgb] at h
            simp at h
          | some b =>
            rw [hgb] at h
            simp only [] at h
            by_cases hd : distance f a ≠ distance f b
            · rw [if_pos hd] at h
              simp only [] at h
              injection h with h5
              subst h5
              obtain ⟨m, hm⟩ := pySliceTo_take results ((results.length : Int) - 1)
              rw [hm]
              constructor
              · intro x hx
                exact h1 x (List.take_subset m results hx)
              · exact List.Pairwise.sublist (List.take_sublist m results) h2
            · rw [if_neg hd] at h
              simp only [] at h
              exact hscan results h1 h2 h3 h
      · rw [if_neg hni] at h
        simp only [] at h
        exact hscan results h1 h2 h3 h
    · rw [if_neg hlt] at h
      injection h with h5
      subst h5
      exact ⟨h1, h2⟩

/-- C4: every feature returned by left(f, n) lies strictly left of f
(end < f.start, distance nonzero) and every feature returned by
right(f, n) lies strictly right of f (start > f.end, distance nonzero),
and both result sequences are ordered by nondecreasing distance from f. -/
theorem c4_direction_order (ivs : List Feature) (T : Intersecter) (f : Feature)
    (n : Int) (hv : validL ivs) (hT : init ivs = .ok T) (hvf : validF f)
    (hn : 1 ≤ n) :
    (∀ fuel out T2, leftF fuel T f n = some (.ok out, T2) →
      (∀ x ∈ out, x.end_ < f.start ∧ distance f x ≠ 0) ∧
      out.Pairwise (fun a b => distance f a ≤ distance f b)) ∧
    (∀ out T2, right T f n = (.ok out, T2) →
      (∀ x ∈ out, f.end_ < x.start ∧ distance f x ≠ 0) ∧
      out.Pairwise (fun a b => distance f a ≤ distance f b)) := by
  have hs := init_sortedStored ivs T hT
  have hvs := init_validStored ivs T hT hv
  constructor
  · intro fuel out T2 h
    obtain ⟨hmem, hpw⟩ := leftF_ok fuel T f n out T2 hs hvs hvf h
    exact ⟨fun x hx => (hmem x hx).2, hpw⟩
  · intro out T2 h
    unfold right at h
    simp only [ddGet_fst] at h
    cases h1 : binsearch_right_end (lookupD T.intervals f.chrom []) f.end_ 0
        (lookupD T.intervals f.chrom []).length with
    | error e =>
      rw [h1] at h
      simp only [] at h
      injection h with hfst hsnd
      exact absurd hfst (by simp)
    | ok ir0 =>
      rw [h1] at h
      simp only [] at h
      injection h with hfst hsnd
      obtain ⟨r1, hr1, hr1a, hr1b, hr1c, hr1d⟩ :=
        bsrF_spec (lookupD T.intervals f.chrom []) f.end_ (hs f.chrom)
          ((lookupD T.intervals f.chrom []).length - 0) 0
          (lookupD T.intervals f.chrom []).length (Nat.zero_le _) (le_refl _)
          (le_refl _)
      unfold binsearch_right_end at h1
      rw [h1] at hr1
      injection hr1 with hr1
      subst hr1
      obtain ⟨hom, hopw⟩ := rightLoop_ok f n (lookupD T.intervals f.chrom [])
        (hs f.chrom) ((lookupD T.intervals f.chrom []).length - ir0) ir0 []
        (fun x hx => absurd hx (List.not_mem_nil x)) List.Pairwise.nil
        (fun x hx => absurd hx (List.not_mem_nil x))
        (fun j hj1 hj2 => hr1d j hj1 hj2) out hfst
      refine ⟨?_, hopw⟩
      intro x hx
      obtain ⟨hxm, hxr⟩ := hom x hx
      have := distance_pure_right hxr
      exact ⟨hxr, by omega⟩

theorem c4_witness :
    (validL docIvs ∧ init docIvs = .ok docT ∧ validF c4f ∧ (1 : Int) ≤ 1) ∧
    ((∀ x ∈ [fA], x.end_ < c4f.start ∧ distance c4f x ≠ 0) ∧
      ([fA] : List Feature).Pairwise
        (fun a b => distance c4f a ≤ distance c4f b)) :=
  ⟨⟨by decide, by decide, by decide, by decide⟩,
   (c4_direction_order docIvs docT c4f 1 (by decide) (by decide) (by decide)
     (by decide)).1 100 [fA] docT (by decide)⟩

/-! Termination of left (claim C5). -/

theorem mem_allFeats (k : Option Int) (g : Feature) :
    ∀ m : PMap, g ∈ lookupD m k [] → g ∈ allFeats m := by
  intro m
  induction m with
  | nil => intro hg; exact absurd hg (by simp [lookupD, lookupP])
  | cons e rest ih =>
    obtain ⟨k2, l2⟩ := e
    intro hg
    unfold lookupD lookupP at hg
    by_cases h : k2 = k
    · rw [if_pos h] at hg
      simp only [Option.getD_some] at hg
      show g ∈ l2 ++ allFeats rest
      exact List.mem_append.mpr (Or.inl hg)
    · rw [if_neg h] at hg
      show g ∈ l2 ++ allFeats rest
      exact List.mem_append.mpr (Or.inr (ih hg))

theorem foldl_min_le (x : Int) : ∀ xs : List Int,
    xs.foldl (fun a b => min a b) x ≤ x ∧
    ∀ y ∈ xs, xs.foldl (fun a b => min a b) x ≤ y := by
  intro xs
  induction xs generalizing x with
  | nil => exact ⟨le_refl x, fun y hy => absurd hy (List.not_mem_nil y)⟩
  | cons z zs ih =>
    rw [List.foldl_cons]
    obtain ⟨ih1, ih2⟩ := ih (min x z)
    refine ⟨le_trans ih1 (min_le_left x z), ?_⟩
    intro y hy
    rcases List.mem_cons.mp hy with hy | hy
    · subst hy; exact le_trans ih1 (min_le_right x y)
    · exact ih2 y hy

theorem minList_le (l : List Int) (x : Int) (hx : x ∈ l) (m : Int)
    (hm : minList l = some m) : m ≤ x := by
  cases l with
  | nil => exact absurd hx (List.not_mem_nil x)
  | cons y ys =>
    unfold minList at hm
    injection hm with hm
    subst hm
    rcases List.mem_cons.mp hx with hx | hx
    · subst hx; exact (foldl_min_le x ys).1
    · exact (foldl_min_le y ys).2 x hx

theorem minList_isSome (l : List Int) (hne : l ≠ []) : ∃ m, minList l = some m := by
  cases l with
  | nil => exact absurd rfl hne
  | cons y ys => exact ⟨_, rfl⟩

theorem allFeats_ddGet (m : PMap) (k : Option Int) :
    allFeats (ddGet m k).2 = allFeats m := by
  unfold ddGet
  cases lookupP m k with
  | some l => rfl
  | none =>
    simp only []
    unfold allFeats
    rw [List.foldr_append]
    rfl

theorem minStartAll_ddGet (T : Intersecter) (k : Option Int) :
    minStartAll ⟨(ddGet T.intervals k).2, T.max_len⟩ = minStartAll T := by
  unfold minStartAll
  simp only []
  rw [allFeats_ddGet]

theorem leftBound_step (T : Intersecter) (f f2 : Feature)
    (hf2 : f2.start < f.start)
    (hg : ∃ g, g ∈ lookupD T.intervals f.chrom [] ∧
      g.start < f.start - T.max_len - 1) :
    leftBound ⟨(ddGet T.intervals f.chrom).2, T.max_len⟩ f2 < leftBound T f := by
  obtain ⟨g, hgm, hgs⟩ := hg
  have hga : g ∈ allFeats T.intervals := mem_allFeats f.chrom g T.intervals hgm
  have hne : (allFeats T.intervals).map (fun g2 => g2.start) ≠ [] := by
    intro hnil
    rw [List.map_eq_nil] at hnil
    rw [hnil] at hga
    exact List.not_mem_nil g hga
  obtain ⟨m, hm⟩ := minList_isSome _ hne
  have hmle : m ≤ g.start :=
    minList_le _ g.start (List.mem_map_of_mem _ hga) m hm
  unfold leftBound
  rw [minStartAll_ddGet]
  unfold minStartAll
  rw [hm]
  simp only []
  omega

theorem leftF_terminates : ∀ (fuel : Nat) (T : Intersecter) (f : Feature) (n : Int),
    sortedStored T → validStored T → leftBound T f < fuel →
    leftF fuel T f n ≠ none := by
  intro fuel
  induction fuel with
  | zero => intro T f n _ _ hb; exact absurd hb (Nat.not_lt_zero _)
  | succ fuel ih =>
    intro T f n hs hv hb
    rw [leftF]
    rcases leftStep_spec T f n hs hv with ⟨e, T1, hstep⟩ |
      ⟨base, m, T1, _, hstep⟩ |
      ⟨base, f2, n2, T1, hbase, hf2e, hf2c, hf2v, hf2lt, hlast, hsmall, hstep⟩
    · rw [hstep]; simp
    · rw [hstep]; simp
    · rw [hstep]
      simp only []
      have hT1 : T1 = ⟨(ddGet T.intervals f.chrom).2, T.max_len⟩ := by
        have hst := leftStep_state T f n
        rw [hstep] at hst
        exact hst
      have hblt : leftBound T1 f2 < leftBound T f := by
        rw [hT1]
        exact leftBound_step T f f2 hf2lt hsmall
      have hrec : leftF fuel T1 f2 n2 ≠ none := by
        refine ih T1 f2 n2 ?_ ?_ (by omega)
        · rw [hT1]; exact sortedStored_ddGet T f.chrom hs
        · rw [hT1]; exact validStored_ddGet T f.chrom hv
      cases hfr : leftF fuel T1 f2 n2 with
      | none => exact absurd hfr hrec
      | some pr =>
        obtain ⟨r3, T3⟩ := pr
        cases r3 <;> simp

/-- C5 (amended): the recursive window widening of left always
terminates: with fuel exceeding leftBound (which measures the gap from
f.start down to the smallest stored start, less the window width) the
evaluation always completes, returning either a result list or a Python
exception. The recursion stops at the partition's left boundary or when a
body returns, but the number of widening steps is bounded by the
coordinate gap, not by the partition size, and for some inputs the
evaluation ends in an IndexError rather than a result. -/
theorem c5_left_terminates (ivs : List Feature) (T : Intersecter) (f : Feature)
    (n : Int) (fuel : Nat) (hv : validL ivs) (hT : init ivs = .ok T)
    (hb : leftBound T f < fuel) : leftF fuel T f n ≠ none :=
  leftF_terminates fuel T f n (init_sortedStored ivs T hT)
    (init_validStored ivs T hT hv) hb

theorem c5_witness :
    (validL c5Ivs ∧ init c5Ivs = .ok c5T ∧ leftBound c5T c5f < 95) ∧
    leftF 95 c5T c5f 1 ≠ none :=
  ⟨⟨by decide, by decide, by decide⟩,
   c5_left_terminates c5Ivs c5T c5f 1 95 (by decide) (by decide) (by decide)⟩

/-- C5 counterexample: left does not always return. On this constructed
Intersecter the widening recursion is entered with a negative requested
count (n = 1 - 3 after three tied results), and the gap scan then indexes
results[-3] on an empty list, so the call raises IndexError instead of
returning; the evaluation below runs with provably sufficient fuel. -/
theorem c5_counterexample :
    init c5Ivs = .ok c5T ∧ leftBound c5T c5f < 95 ∧
    leftF 95 c5T c5f 1 = some (.error .indexError, c5T) :=
  ⟨by decide, by decide, by decide⟩

/-! Tie inclusion of right (claim C3). -/

theorem pyGetI_natCast (l : List Feature) (j : Nat) (hj : j < l.length) :
    pyGetI l (j : Int) = some (l.getD j d0) := by
  unfold pyGetI
  simp only []
  rw [if_neg (by omega : ¬((j : Int) < 0)), if_pos (by omega : (0 : Int) ≤ (j : Int))]
  rw [Int.toNat_natCast]
  exact get?_getD l j hj

theorem pySliceTo_natCast (l : List Feature) (j : Nat) :
    pySliceTo l (j : Int) = l.take j := by
  unfold pySliceTo
  simp only []
  rw [if_neg (by omega : ¬((j : Int) < 0)), Int.toNat_natCast]

theorem pairwise_getD_mono (key : Feature → Int) (l : List Feature)
    (hs : l.Pairwise (fun a b => key a ≤ key b)) {i j : Nat}
    (hij : i ≤ j) (hj : j < l.length) :
    key (l.getD i d0) ≤ key (l.getD j d0) := by
  rcases Nat.eq_or_lt_of_le hij with h | h
  · subst h; exact le_refl _
  · have hi : i < l.length := lt_trans h hj
    rw [List.getD_eq_getElem l d0 hi, List.getD_eq_getElem l d0 hj]
    exact List.pairwise_iff_getElem.mp hs i j hi hj h

theorem tie_chain (f : Feature) (N : Nat) (out : List Feature)
    (hp : ∀ j : Nat, N - 1 ≤ j → j + 2 ≤ out.length →
      distance f (out.getD j d0) = distance f (out.getD (j + 1) d0)) :
    ∀ j : Nat, N - 1 ≤ j → j < out.length →
      distance f (out.getD j d0) = distance f (out.getD (N - 1) d0) := by
  intro j
  induction j with
  | zero =>
    intro hj _
    have : N - 1 = 0 := by omega
    rw [this]
  | succ j ihj =>
    intro hj hjl
    by_cases hjn : N - 1 ≤ j
    · have h1 := hp j hjn (by omega)
      have h2 := ihj hjn (by omega)
      omega
    · have : N - 1 = j + 1 := by omega
      rw [this]

theorem rightLoop_tie (f : Feature) (N : Nat) (hN : 1 ≤ N)
    (intervals : List Feature)
    (hs : intervals.Pairwise (fun a b => a.start ≤ b.start))
    (hvi : ∀ x ∈ intervals, validF x) (hvf : validF f) :
    ∀ (fuel iright : Nat) (results : List Feature),
    intervals.length ≤ iright + fuel →
    (∀ x ∈ results, x ∈ intervals ∧ f.end_ < x.start) →
    results.Pairwise (fun a b => distance f a ≤ distance f b) →
    (∀ x ∈ results, ∀ j, iright ≤ j → j < intervals.length →
      distance f x ≤ distance f (intervals.getD j d0)) →
    (∀ j, iright ≤ j → j < intervals.length →
      f.end_ < (intervals.getD j d0).start) →
    (∀ g, g ∈ intervals → f.end_ < g.start → g ∈ results ∨
      ∃ j, iright ≤ j ∧ j < intervals.length ∧ intervals.getD j d0 = g) →
    (∀ j : Nat, N - 1 ≤ j → j + 3 ≤ results.length →
      distance f (results.getD j d0) = distance f (results.getD (j + 1) d0)) →
    ∀ out, rightLoop f (N : Int) intervals intervals.length fuel iright results =
      .ok out →
    (∀ g, g ∈ intervals → f.end_ < g.start → g ∈ out) ∨
    ((∀ j : Nat, N ≤ j → j < out.length →
        distance f (out.getD j d0) = distance f (out.getD (N - 1) d0)) ∧
      (∀ g, g ∈ intervals → f.end_ < g.start → g ∉ out →
        distance f (out.getD (out.length - 1) d0) < distance f g)) := by
  intro fuel
  induction fuel with
  | zero =>
    intro iright results hflen hI1 hI2 hI3 hI4 hI5 hI6 out h
    unfold rightLoop at h
    injection h with h5
    subst h5
    left
    intro g hg hgr
    rcases hI5 g hg hgr with hin | ⟨j, hj1, hj2, _⟩
    · exact hin
    · omega
  | succ fuel ih =>
    intro iright results hflen hI1 hI2 hI3 hI4 hI5 hI6 out h
    rw [rightLoop] at h
    by_cases hlt : iright < intervals.length
    · rw [if_pos hlt] at h
      simp only [] at h
      have hscan : (((N : Int) < (results.length : Int) →
          distance f (results.getD (results.length - 1) d0) =
            distance f (results.getD (results.length - 2) d0))) →
          (match intervals.get? iright with
            | none => Except.error PyErr.indexError
            | some other =>
              if distance other f = 0 then
                rightLoop f (N : Int) intervals intervals.length fuel
                  (iright + 1) results
              else
                rightLoop f (N : Int) intervals intervals.length fuel
                  (iright + 1) (results ++ [other])) = .ok out →
          (∀ g, g ∈ intervals → f.end_ < g.start → g ∈ out) ∨
          ((∀ j : Nat, N ≤ j → j < out.length →
              distance f (out.getD j d0) = distance f (out.getD (N - 1) d0)) ∧
            (∀ g, g ∈ intervals → f.end_ < g.start → g ∉ out →
              distance f (out.getD (out.length - 1) d0) < distance f g)) := by
        intro htie_ext hm
        rw [get?_getD intervals iright hlt] at hm
        simp only [] at hm
        have hrt : f.end_ < (intervals.getD iright d0).start :=
          hI4 iright (le_refl _) hlt
        have hov : validF (intervals.getD iright d0) :=
          hvi _ (getD_mem intervals hlt)
        have hnz : ¬(distance (intervals.getD iright d0) f = 0) := by
          unfold validF at hov hvf
          unfold distance
          rw [if_neg (by omega), if_pos hrt]
          omega
        rw [if_neg hnz] at hm
        refine ih (iright + 1) (results ++ [intervals.getD iright d0]) (by omega)
          ?_ ?_ ?_ ?_ ?_ ?_ out hm
        · intro x hx
          rcases List.mem_append.mp hx with hx | hx
          · exact hI1 x hx
          · rw [List.mem_singleton.mp hx]
            exact ⟨getD_mem intervals hlt, hrt⟩
        · rw [List.pairwise_append]
          refine ⟨hI2, List.pairwise_singleton _ _, ?_⟩
          intro a ha b hb
          rw [List.mem_singleton.mp hb]
          exact hI3 a ha iright (le_refl _) hlt
        · intro x hx j hj1 hj2
          rcases List.mem_append.mp hx with hx | hx
          · exact hI3 x hx j (by omega) hj2
          · rw [List.mem_singleton.mp hx]
            rw [distance_pure_right hrt, distance_pure_right (hI4 j (by omega) hj2)]
            have := sorted_getD_mono intervals hs
              (le_of_lt (by omega : iright < j)) hj2
            omega
        · intro j hj1 hj2
          exact hI4 j (by omega) hj2
        · intro g hg hgr
          rcases hI5 g hg hgr with hgin | ⟨j, hj1, hj2, hjeq⟩
          · exact Or.inl (List.mem_append.mpr (Or.inl hgin))
          · by_cases hj : j = iright
            · subst hj
              left
              rw [← hjeq]
              exact List.mem_append.mpr (Or.inr (List.mem_singleton.mpr rfl))
            · exact Or.inr ⟨j, by omega, hj2, hjeq⟩
        · intro j hj1 hj2
          rw [List.length_append, List.length_singleton] at hj2
          by_cases hcase : j + 3 ≤ results.length
          · rw [getD_append_left results [intervals.getD iright d0] j (by omega),
              getD_append_left results [intervals.getD iright d0] (j + 1) (by omega)]
            exact hI6 j hj1 hcase
          · have hj3 : j + 3 = results.length + 1 := by omega
            rw [getD_append_left results [intervals.getD iright d0] j (by omega),
              getD_append_left results [intervals.getD iright d0] (j + 1) (by omega)]
            have hNlt : (N : Int) < (results.length : Int) := by omega
            have hext := htie_ext hNlt
            have hje : j = results.length - 2 := by omega
            have hje1 : j + 1 = results.length - 1 := by omega
            rw [hje1, hje]
            omega
      by_cases hni : (N : Int) < (results.length : Int)
      · rw [if_pos hni] at h
        have hL2 : 2 ≤ results.length := by omega
        have hc1 : (results.length : Int) - 1 = ((results.length - 1 : Nat) : Int) := by
          omega
        have hc2 : (results.length : Int) - 2 = ((results.length - 2 : Nat) : Int) := by
          omega
        rw [hc1, pyGetI_natCast results (results.length - 1) (by omega)] at h
        rw [hc2, pyGetI_natCast results (results.length - 2) (by omega)] at h
        simp only [] at h
        by_cases hd : distance f (results.getD (results.length - 1) d0) ≠
            distance f (results.getD (results.length - 2) d0)
        · rw [if_pos hd] at h
          simp only [] at h
          injection h with h5
          subst h5
          right
          rw [pySliceTo_natCast results (results.length - 1)]
          have hout_len : (results.take (results.length - 1)).length =
              results.length - 1 := by
            rw [List.length_take]
            omega
          have hmono : distance f (results.getD (results.length - 2) d0) ≤
              distance f (results.getD (results.length - 1) d0) :=
            pairwise_getD_mono (fun x => distance f x) results hI2 (by omega)
              (by omega)
          constructor
          · have hpairs : ∀ j : Nat, N - 1 ≤ j →
                j + 2 ≤ (results.take (results.length - 1)).length →
                distance f ((results.take (results.length - 1)).getD j d0) =
                  distance f ((results.take (results.length - 1)).getD (j + 1) d0) := by
              intro j hj1 hj2
              rw [hout_len] at hj2
              rw [getD_take results (results.length - 1) j (by omega) (by omega),
                getD_take results (results.length - 1) (j + 1) (by omega) (by omega)]
              exact hI6 j hj1 (by omega)
            intro j hj1 hj2
            exact tie_chain f N (results.take (results.length - 1)) hpairs j
              (by omega) hj2
          · intro g hg hgr hgnot
            have hout_last : (results.take (results.length - 1)).getD
                ((results.take (results.length - 1)).length - 1) d0 =
                results.getD (results.length - 2) d0 := by
              rw [hout_len]
              have hidx : results.length - 1 - 1 = results.length - 2 := by omega
              rw [hidx]
              rw [getD_take results (results.length - 1) (results.length - 2)
                (by omega) (by omega)]
            rw [hout_last]
            rcases hI5 g hg hgr with hgin | ⟨j, hj1, hj2, hjeq⟩
            · have hsplit := List.take_append_drop (results.length - 1) results
              have hgin2 : g ∈ results.take (results.length - 1) ++
                  results.drop (results.length - 1) := by
                rw [hsplit]
                exact hgin
              rcases List.mem_append.mp hgin2 with hcontra | hdrop
              · exact absurd hcontra hgnot
              · obtain ⟨j0, hj0, hj0get⟩ := List.mem_iff_getElem.mp hdrop
                have hdlen := List.length_drop (results.length - 1) results
                have hj00 : j0 = 0 := by omega
                subst hj00
                have hge : (results.drop (results.length - 1))[0] =
                    results[(results.length - 1) + 0] := List.getElem_drop results
                have hgeq : g = results.getD (results.length - 1) d0 := by
                  rw [List.getD_eq_getElem results d0 (by omega : results.length - 1 < results.length)]
                  rw [← hj0get, hge]
                  simp
                rw [hgeq]
                omega
            · have hx := hI3 (results.getD (results.length - 1) d0)
                (getD_mem results (by omega)) j hj1 hj2
              rw [hjeq] at hx
              omega
        · rw [if_neg hd] at h
          simp only [] at h
          refine hscan (fun _ => ?_) h
          have := not_not.mp hd
          omega
      · rw [if_neg hni] at h
        simp only [] at h
        exact hscan (fun hcontra => absurd hcontra hni) h
    · rw [if_neg hlt] at h
      injection h with h5
      subst h5
      left
      intro g hg hgr
      rcases hI5 g hg hgr with hin | ⟨j, hj1, hj2, _⟩
      · exact hin
      · omega

/-- C3 (amended): for right(f, n) with n ≥ 1 on a constructed
Intersecter, if the scan returns more than n results and at least one
stored feature strictly to the right of f is not among them, then the
results at positions n through m-1 all share the distance of the result
at position n-1, and every excluded right-side feature is strictly
farther from f than the last returned result. (As originally stated the
claim fails: when the scan exhausts the partition it returns every
right-side feature, and the surplus results need not be ties; the left
counterpart additionally fails through the recursive widening.) -/
theorem c3_tie_amended (ivs : List Feature) (T : Intersecter) (f : Feature)
    (N : Nat) (out : List Feature) (T2 : Intersecter)
    (hv : validL ivs) (hT : init ivs = .ok T) (hvf : validF f) (hN : 1 ≤ N)
    (hr : right T f (N : Int) = (.ok out, T2))
    (hm : (N : Int) < (out.length : Int))
    (hex : ∃ g, g ∈ lookupD T.intervals f.chrom [] ∧ f.end_ < g.start ∧
      g ∉ out) :
    (∀ j : Nat, N ≤ j → j < out.length →
      distance f (out.getD j d0) = distance f (out.getD (N - 1) d0)) ∧
    (∀ g, g ∈ lookupD T.intervals f.chrom [] → f.end_ < g.start → g ∉ out →
      distance f (out.getD (out.length - 1) d0) < distance f g) := by
  have hs := init_sortedStored ivs T hT
  have hvs := init_validStored ivs T hT hv
  unfold right at hr
  simp only [ddGet_fst] at hr
  cases h1 : binsearch_right_end (lookupD T.intervals f.chrom []) f.end_ 0
      (lookupD T.intervals f.chrom []).length with
  | error e =>
    rw [h1] at hr
    simp only [] at hr
    injection hr with hfst hsnd
    exact absurd hfst (by simp)
  | ok ir0 =>
    rw [h1] at hr
    simp only [] at hr
    injection hr with hfst hsnd
    obtain ⟨r1, hr1, hr1a, hr1b, hr1c, hr1d⟩ :=
      bsrF_spec (lookupD T.intervals f.chrom []) f.end_ (hs f.chrom)
        ((lookupD T.intervals f.chrom []).length - 0) 0
        (lookupD T.intervals f.chrom []).length (Nat.zero_le _) (le_refl _)
        (le_refl _)
    unfold binsearch_right_end at h1
    rw [h1] at hr1
    injection hr1 with hr1
    subst hr1
    have hvi : ∀ x ∈ lookupD T.intervals f.chrom [], validF x :=
      fun x hx => hvs f.chrom x hx
    have hI5 : ∀ g, g ∈ lookupD T.intervals f.chrom [] → f.end_ < g.start →
        g ∈ ([] : List Feature) ∨ ∃ j, ir0 ≤ j ∧
          j < (lookupD T.intervals f.chrom []).length ∧
          (lookupD T.intervals f.chrom []).getD j d0 = g := by
      intro g hg hgr
      right
      obtain ⟨j0, hj0, hj0get⟩ := List.mem_iff_getElem.mp hg
      have hgd : (lookupD T.intervals f.chrom []).getD j0 d0 = g := by
        rw [List.getD_eq_getElem _ d0 hj0]
        exact hj0get
      by_cases hcase : j0 < ir0
      · have := hr1c j0 (Nat.zero_le _) hcase
        rw [hgd] at this
        omega
      · exact ⟨j0, by omega, hj0, hgd⟩
    rcases rightLoop_tie f N hN (lookupD T.intervals f.chrom []) (hs f.chrom)
      hvi hvf ((lookupD T.intervals f.chrom []).length - ir0) ir0 []
      (by omega)
      (fun x hx => absurd hx (List.not_mem_nil x))
      List.Pairwise.nil
      (fun x hx => absurd hx (List.not_mem_nil x))
      (fun j hj1 hj2 => hr1d j hj1 hj2)
      hI5
      (fun j hj1 hj2 => by simp at hj2)
      out hfst with hall | hres
    · obtain ⟨g, hg1, hg2, hg3⟩ := hex
      exact absurd (hall g hg1 hg2) hg3
    · exact hres

/-- C3 counterexample: with two stored features at distances 9 and 11 to
the right of the query and n = 1, the scan exhausts the partition and
returns both, so it returns m = 2 > n results whose position-1 distance
differs from the position-0 distance, violating the tie-inclusion clause
of the claim as stated. -/
theorem c3_counterexample :
    init [c3a, c3b] = .ok c3T ∧
    right c3T c3f 1 = (.ok [c3a, c3b], c3T) ∧
    (1 : Int) < (([c3a, c3b] : List Feature).length : Int) ∧
    distance c3f (([c3a, c3b] : List Feature).getD 1 d0) ≠
      distance c3f (([c3a, c3b] : List Feature).getD 0 d0) := by
  exact ⟨by decide, by decide, by decide, by decide⟩

theorem c3_witness :
    (validL c3wIvs ∧ init c3wIvs = .ok c3wT ∧ validF c3f ∧ 1 ≤ 1 ∧
      right c3wT c3f ((1 : Nat) : Int) =
        (.ok [⟨6, 7, 0, "", none, none⟩, ⟨6, 8, 0, "", none, none⟩], c3wT) ∧
      ((1 : Nat) : Int) <
        (([⟨6, 7, 0, "", none, none⟩, ⟨6, 8, 0, "", none, none⟩] :
          List Feature).length : Int) ∧
      (⟨8, 9, 0, "", none, none⟩ : Feature) ∈ lookupD c3wT.intervals none [] ∧
      c3f.end_ < (8 : Int) ∧
      (⟨8, 9, 0, "", none, none⟩ : Feature) ∉
        ([⟨6, 7, 0, "", none, none⟩, ⟨6, 8, 0, "", none, none⟩] : List Feature)) ∧
    ((∀ j : Nat, 1 ≤ j →
        j < ([⟨6, 7, 0, "", none, none⟩, ⟨6, 8, 0, "", none, none⟩] :
          List Feature).length →
        distance c3f (([⟨6, 7, 0, "", none, none⟩, ⟨6, 8, 0, "", none, none⟩] :
          List Feature).getD j d0) =
        distance c3f (([⟨6, 7, 0, "", none, none⟩, ⟨6, 8, 0, "", none, none⟩] :
          List Feature).getD (1 - 1) d0)) ∧
      (∀ g, g ∈ lookupD c3wT.intervals c3f.chrom [] → c3f.end_ < g.start →
        g ∉ ([⟨6, 7, 0, "", none, none⟩, ⟨6, 8, 0, "", none, none⟩] :
          List Feature) →
        distance c3f (([⟨6, 7, 0, "", none, none⟩, ⟨6, 8, 0, "", none, none⟩] :
          List Feature).getD
          (([⟨6, 7, 0, "", none, none⟩, ⟨6, 8, 0, "", none, none⟩] :
            List Feature).length - 1) d0) < distance c3f g)) :=
  ⟨⟨by decide, by decide, by decide, by decide, by decide, by decide, by decide,
    by decide, by decide⟩,
   c3_tie_amended c3wIvs c3wT c3f 1
     [⟨6, 7, 0, "", none, none⟩, ⟨6, 8, 0, "", none, none⟩] c3wT
     (by decide) (by decide) (by decide) (by decide) (by decide) (by decide)
     ⟨⟨8, 9, 0, "", none, none⟩, by decide, by decide, by decide⟩⟩

end Cruzdb